import Mathlib

/-!
# Verification of the cargo-preset CLI (`src/main.rs`)

Shallow embedding of the program's filesystem operations and command
handlers, and proofs about the claims of the specification.

The filesystem is modelled as a tree of named entries; paths are lists of
components.  `PathBuf` push/pop semantics, `std::fs` primitives and the
`fs_extra` directory-copy routine (version 1.3.0, the library the program
links against) are translated operation by operation.
-/

namespace CargoPreset

/-- A filesystem entry: a regular file with its byte content (modelled as a
string) or a directory with a list of named children, in directory order. -/
inductive Entry where
  | file (content : String)
  | dir (children : List (String × Entry))
  deriving Repr

/-- Names of the immediate children of a directory's child list. -/
def keysOf (cs : List (String × Entry)) : List String := cs.map Prod.fst

/-- Look up a child by name (first match, as the OS resolves a unique name). -/
def findChild : List (String × Entry) → String → Option Entry
  | [], _ => none
  | (m, e) :: rest, n => if m = n then some e else findChild rest n

/-- Replace the child named `n` (first occurrence), or append it if absent. -/
def setChild : List (String × Entry) → String → Entry → List (String × Entry)
  | [], n, e => [(n, e)]
  | (m, e') :: rest, n, e => if m = n then (n, e) :: rest else (m, e') :: setChild rest n e

/-- Remove every child named `n`. -/
def delChild : List (String × Entry) → String → List (String × Entry)
  | [], _ => []
  | (m, e) :: rest, n => if m = n then delChild rest n else (m, e) :: delChild rest n

/-- Resolve a path from an entry. -/
def lookup : Entry → List String → Option Entry
  | e, [] => some e
  | .file _, _ :: _ => none
  | .dir cs, n :: q =>
    match findChild cs n with
    | some e => lookup e q
    | none => none

/-- The content of the regular file at a path, if there is one. -/
def lookupFile (fs : Entry) (p : List String) : Option String :=
  match lookup fs p with
  | some (.file c) => some c
  | _ => none

/-- There is a directory at the path. -/
def isDir (fs : Entry) (p : List String) : Prop :=
  ∃ cs, lookup fs p = some (.dir cs)

/-- The names `read_dir` would list at a path (empty if not a directory). -/
def childKeys (fs : Entry) (p : List String) : List String :=
  match lookup fs p with
  | some (.dir cs) => keysOf cs
  | _ => []

/-- Relative paths of all regular files below an entry (pre-order, the order
`fs_extra::dir::get_dir_content` collects them in). -/
def collectFilePaths : Entry → List (List String)
  | .file _ => [[]]
  | .dir cs => collectL cs
where
  collectL : List (String × Entry) → List (List String)
  | [] => []
  | (n, e) :: rest => (collectFilePaths e).map (n :: ·) ++ collectL rest

/-- Relative paths of all directories below (and including) a directory:
`get_dir_content` lists the root directory itself first. -/
def collectDirPaths : Entry → List (List String)
  | .file _ => []
  | .dir cs => [] :: collectDL cs
where
  collectDL : List (String × Entry) → List (List String)
  | [] => []
  | (n, e) :: rest => (collectDirPaths e).map (n :: ·) ++ collectDL rest

/-- `std::fs::copy`'s effect on the destination: create or truncate the file
at the path.  Requires every proper prefix of the path to be an existing
directory and the path itself to be absent or a regular file; writing to a
directory path or below a missing parent fails (`None`). -/
def writeFile : Entry → List String → String → Option Entry
  | _, [], _ => none
  | .file _, _ :: _, _ => none
  | .dir cs, [n], c =>
    match findChild cs n with
    | some (.dir _) => none
    | _ => some (.dir (setChild cs n (.file c)))
  | .dir cs, n :: m :: q, c =>
    match findChild cs n with
    | some e => (writeFile e (m :: q) c).map (fun e' => .dir (setChild cs n e'))
    | none => none

/-- `std::fs::create_dir`: the parent must be an existing directory and the
path itself must not exist. -/
def mkdir : Entry → List String → Option Entry
  | _, [] => none
  | .file _, _ :: _ => none
  | .dir cs, [n] =>
    match findChild cs n with
    | some _ => none
    | none => some (.dir (setChild cs n (.dir [])))
  | .dir cs, n :: m :: q =>
    match findChild cs n with
    | some e => (mkdir e (m :: q)).map (fun e' => .dir (setChild cs n e'))
    | none => none

/-- The existing child of that name, or a fresh empty directory. -/
def childOr (cs : List (String × Entry)) (n : String) : Entry :=
  match findChild cs n with
  | some e => e
  | none => .dir []

/-- `std::fs::create_dir_all`: creates every missing directory along the
path; succeeds when the path already is a directory, fails when a regular
file stands anywhere on the path. -/
def mkdirAll : Entry → List String → Option Entry
  | .dir cs, [] => some (.dir cs)
  | .file _, _ => none
  | .dir cs, n :: q =>
    (mkdirAll (childOr cs n) q).map (fun e' => .dir (setChild cs n e'))

/-- `std::fs::remove_dir_all`: recursively delete the directory at the path;
fails when the path is missing or not a directory. -/
def removeDirAll : Entry → List String → Option Entry
  | _, [] => none
  | .file _, _ :: _ => none
  | .dir cs, [n] =>
    match findChild cs n with
    | some (.dir _) => some (.dir (delChild cs n))
    | _ => none
  | .dir cs, n :: m :: q =>
    match findChild cs n with
    | some e => (removeDirAll e (m :: q)).map (fun e' => .dir (setChild cs n e'))
    | none => none

/-! ## Paths with `PathBuf` semantics -/

/-- A Rust path: a flag for absoluteness plus the components.  The model
keeps no `.`/`..` components (the program never writes any). -/
structure RPath where
  absolute : Bool
  comps : List String
  deriving Repr, DecidableEq

/-- `PathBuf::push`: extends the path, unless the pushed path is absolute,
in which case it replaces the whole path. -/
def RPath.push (p q : RPath) : RPath :=
  if q.absolute then q else ⟨p.absolute, p.comps ++ q.comps⟩

/-- `PathBuf::pop`: drop the last component (no-op at a root). -/
def RPath.pop (p : RPath) : RPath :=
  ⟨p.absolute, p.comps.dropLast⟩

/-- Resolve a path against the process working directory, as the OS does for
every `std::fs` call: relative paths are interpreted below `cwd`. -/
def RPath.resolve (p : RPath) (cwd : List String) : List String :=
  if p.absolute then p.comps else cwd ++ p.comps

/-! ## The `fs_extra` copy routine (version 1.3.0)

The program calls `fs_extra::dir::copy`.  Its source (`src/dir.rs`) scans
the source tree once (`get_dir_content2`), then creates each listed
directory that does not exist and copies each listed file with
`fs_extra::file::copy`, which refuses an existing destination unless
`overwrite` (or skips it under `skip_exist`).  The destination root gets the
source directory's name appended when the destination exists or
`copy_inside` is off, unless `content_only` is set. -/

/-- `fs_extra::dir::CopyOptions`; `CopyOptions::new()` leaves all four
flags `false`. -/
structure FECopyOptions where
  overwrite : Bool := false
  skip_exist : Bool := false
  copy_inside : Bool := false
  content_only : Bool := false
  deriving Repr, DecidableEq

/-- Errors carry the filesystem state at the moment of failure, so that
partially completed operations are observable (the program never rolls
back). -/
abbrev FsM := Except (String × Entry) Entry

/-- `fs_extra::file::copy`: source must be an existing regular file; an
existing destination is an error unless `overwrite` (or returns unchanged
under `skip_exist`); otherwise defer to `std::fs::copy`. -/
def fsExtraFileCopy (fs : Entry) (src dst : List String) (opts : FECopyOptions) : FsM :=
  match lookup fs src with
  | none => .error ("Path does not exist or you don't have access!", fs)
  | some (.dir _) => .error ("Path is not a file!", fs)
  | some (.file c) =>
    if !opts.overwrite && (lookup fs dst).isSome then
      if opts.skip_exist then .ok fs
      else .error ("Path exists", fs)
    else
      match writeFile fs dst c with
      | some fs' => .ok fs'
      | none => .error ("io error", fs)

/-- One step of `fs_extra::dir::copy`'s directory-creation loop: skip the
target when it exists, otherwise `create_all` under `copy_inside` and
`create` otherwise. -/
def copyDirsStep (opts : FECopyOptions) (dstRoot : List String) (acc : Entry)
    (d : List String) : FsM :=
  if (lookup acc (dstRoot ++ d)).isSome then .ok acc
  else if opts.copy_inside then
    match mkdirAll acc (dstRoot ++ d) with
    | some a => .ok a
    | none => .error ("create error", acc)
  else
    match mkdir acc (dstRoot ++ d) with
    | some a => .ok a
    | none => .error ("create error", acc)

/-- One step of `fs_extra::dir::copy`'s file loop: copy the file at the
scanned relative path, reading the bytes from the live filesystem. -/
def copyFilesStep (opts : FECopyOptions) (src dstRoot : List String) (acc : Entry)
    (q : List String) : FsM :=
  fsExtraFileCopy acc (src ++ q) (dstRoot ++ q) opts

/-- `fs_extra::dir::copy` (1.3.0).  The destination root is
`to.push(dir_name)` exactly when `(to.exists() || !copy_inside) &&
!content_only`; then the scanned directories are created and the scanned
files copied one by one. -/
def fsExtraDirCopy (fs : Entry) (src dst : List String) (opts : FECopyOptions) : FsM :=
  match lookup fs src with
  | none => .error ("Path does not exist or you don't have access!", fs)
  | some (.file _) => .error ("Path is not a directory!", fs)
  | some (.dir cs) =>
    match src.getLast? with
    | none => .error ("Invalid folder from", fs)
    | some dirName =>
      let dstRoot :=
        if ((lookup fs dst).isSome || !opts.copy_inside) && !opts.content_only
        then dst ++ [dirName] else dst
      match (collectDirPaths (.dir cs)).foldlM (copyDirsStep opts dstRoot) fs with
      | .error e => .error e
      | .ok fs1 => (collectFilePaths (.dir cs)).foldlM (copyFilesStep opts src dstRoot) fs1

/-! ## The program (`main.rs`) -/

/-- `main.rs` lines 60–76: resolve `<HOME>/.config/cargo_preset`, failing
when `HOME` is unset or `<HOME>/.config` does not exist, and creating the
`cargo_preset` level when absent (with a notice when `--debug` is set).
Returns the store path, the filesystem and the lines printed. -/
def locateStore (home : Option (List String)) (debug : Bool) (fs : Entry) :
    Except String (List String × Entry × List String) :=
  match home with
  | none => .error "Home directory not found"
  | some h =>
    let p := h ++ [".config"]
    if (lookup fs p).isSome then
      let p := p ++ ["cargo_preset"]
      if (lookup fs p).isSome then .ok (p, fs, [])
      else
        let out := if debug then ["Creating cargo_preset configuration directory"] else []
        match mkdir fs p with
        | some fs' => .ok (p, fs', out)
        | none => .error "create_dir failed"
    else .error "$HOME/.config directory not found"

/-- `main.rs` lines 78–86, the pure part: the registry is the list of entry
names of the store directory. -/
def presetsOf (fs : Entry) (store : List String) : List String :=
  childKeys fs store

/-- `Command::List` (lines 109–114): the header followed by one
tab-indented line per registry entry. -/
def listOutput (fs : Entry) (store : List String) : List String :=
  "Available presets: " :: (presetsOf fs store).map (fun d => "\t" ++ d)

/-- `Command::Apply` (lines 90–108): fail when the name is not in the
registry, else copy the preset directory with
`CopyOptions::new().copy_inside(true).content_only(true)` into the working
directory (obtained in the program by shelling out to `sh -c pwd`, here the
`cwd` parameter). -/
def applyCmd (store : List String) (presets : List String) (name : String)
    (cwd : List String) (fs : Entry) : FsM :=
  if presets.contains name then
    fsExtraDirCopy fs (store ++ [name]) cwd
      { copy_inside := true, content_only := true }
  else .error ("Could not find preset with name " ++ name, fs)

/-- One iteration of the `paths.files` loop (lines 122–128): `config.push(&file)`,
`fs::copy(file, &config)`, `config.pop()`.  The state threads the `config`
path, faithfully reproducing `PathBuf::push` on absolute or multi-component
arguments. -/
def addFilesStep (cwd : List String) (st : RPath × Entry) (file : RPath) :
    Except (String × Entry) (RPath × Entry) :=
  let cfg := st.1.push file
  match lookup st.2 (file.resolve cwd) with
  | some (.file c) =>
    match writeFile st.2 (cfg.resolve cwd) c with
    | some fs' => .ok (cfg.pop, fs')
    | none => .error ("io error", st.2)
  | _ => .error ("source is not a readable file", st.2)

/-- One iteration of the `paths.directories` loop (lines 130–135):
`fs_extra::dir::copy(directory, &config, &CopyOptions::new().copy_inside(true))`. -/
def addDirsStep (cwd : List String) (cfg : RPath) (acc : Entry) (d : RPath) : FsM :=
  fsExtraDirCopy acc (d.resolve cwd) (cfg.resolve cwd) { copy_inside := true }

/-- `Command::Add` (lines 115–136): fail when the name is already in the
registry, else create the preset directory, run the files loop, then the
directories loop. -/
def addCmd (config : RPath) (presets : List String) (name : String)
    (files dirs : List RPath) (cwd : List String) (fs : Entry) : FsM :=
  if presets.contains name then
    .error ("Preset with name " ++ name ++ " already exists", fs)
  else
    let config := config.push ⟨false, [name]⟩
    match mkdir fs (config.resolve cwd) with
    | none => .error ("create_dir failed", fs)
    | some fs1 =>
      match files.foldlM (addFilesStep cwd) (config, fs1) with
      | .error e => .error e
      | .ok (config2, fs2) => dirs.foldlM (addDirsStep cwd config2) fs2

/-- `Command::Remove` (lines 137–140): `fs::remove_dir_all` on the preset
directory. -/
def removeCmd (store : List String) (name : String) (fs : Entry) : FsM :=
  match removeDirAll fs (store ++ [name]) with
  | some fs' => .ok fs'
  | none => .error ("remove_dir_all failed", fs)

/-- `"-".repeat n`. -/
def dashRepeat : Nat → String
  | 0 => ""
  | n + 1 => "-" ++ dashRepeat n

/-- The lines `print_dir(level, path)` (lines 159–178) produces below a
directory entry: nothing below a file; for a directory, one line per child
at the given level, child directories recursed into at `level + 1` with a
trailing `/`. -/
def printDirE : Nat → Entry → List String
  | _, .file _ => []
  | lvl, .dir cs => go lvl cs
where
  go : Nat → List (String × Entry) → List String
  | _, [] => []
  | lvl, (n, e) :: rest =>
    (match e with
     | .file _ => [dashRepeat lvl ++ " " ++ n]
     | .dir _ => (dashRepeat lvl ++ " " ++ n ++ "/") :: printDirE (lvl + 1) e) ++ go lvl rest

/-- `print_dir` proper, which iterates over a directory's children. -/
def printDir (lvl : Nat) (cs : List (String × Entry)) : List String :=
  printDirE.go lvl cs

/-- The top-level loop of `Command::Inspect` (lines 144–152): entries are
prefixed with a literal `"- "`, and directories recursed into with
`print_dir(1, ..)`. -/
def inspectTop : List (String × Entry) → List String
  | [] => []
  | (n, e) :: rest =>
    (match e with
     | .file _ => ["- " ++ n]
     | .dir _ => ("- " ++ n ++ "/") :: printDirE 1 e) ++ inspectTop rest

/-- `Command::Inspect` (lines 141–153): header plus the rendered tree; the
`read_dir` of a missing or non-directory preset path fails. -/
def inspectCmd (store : List String) (name : String) (fs : Entry) :
    Except String (List String) :=
  match lookup fs (store ++ [name]) with
  | some (.dir cs) => .ok (("Contents of " ++ name ++ ": ") :: inspectTop cs)
  | _ => .error "read_dir failed"

/-! ## Registry enumeration with raw OS names (lines 78–86)

Each `read_dir` item either fails to be retrieved or yields an OS string
that may not be valid UTF-8.  The program calls `.expect(..)` on both,
which panics — an abort distinct from the `anyhow` error channel every
other failure uses. -/

/-- A raw directory-entry name as the OS hands it over. -/
inductive RawName where
  | utf8 (s : String)
  | invalid
  deriving Repr, DecidableEq

/-- Either a normal value or a process panic (from `.expect`). -/
inductive PanicOr (α : Type) where
  | panic (msg : String)
  | ok (a : α)
  deriving Repr

/-- Is the outcome a panic? -/
def PanicOr.isPanic {α : Type} : PanicOr α → Bool
  | .panic _ => true
  | .ok _ => false

/-- The `current_presets` collection (lines 78–86) over the raw entries:
`dir.expect("Could not get directory entry")` then
`.to_str().expect("Could not convert filename into string")`. -/
def currentPresets : List (Except String RawName) → PanicOr (List String)
  | [] => .ok []
  | .error _ :: _ => .panic "Could not get directory entry"
  | .ok .invalid :: _ => .panic "Could not convert filename into string"
  | .ok (.utf8 s) :: rest =>
    match currentPresets rest with
    | .panic m => .panic m
    | .ok l => .ok (s :: l)

/-! ## Auxiliary definitions for the statements -/

/-- Two paths are independent when neither is a prefix of the other: they
address disjoint parts of the filesystem. -/
def Indep (a b : List String) : Prop := ¬ a <+: b ∧ ¬ b <+: a

instance instDecidableIndep (a b : List String) : Decidable (Indep a b) :=
  inferInstanceAs (Decidable (¬ a <+: b ∧ ¬ b <+: a))

/-- The filesystem state an `FsM` outcome carries (errors keep the state at
the moment of failure). -/
def stateOf : FsM → Entry
  | .ok e => e
  | .error (_, e) => e

/-- Did the command succeed? -/
def isOkFs : FsM → Bool
  | .ok _ => true
  | .error _ => false

/-- The rendering the specification describes, as amended: a depth-first
walk where the entry at nesting depth `d` is indented by the marker
repeated `max d 1` times (the program hard-codes one marker at depth 0) and
directories carry a trailing separator.  Written from the spec's words, to
be compared with `inspectTop`/`printDir`. -/
def specRenderE : Nat → Entry → List String
  | _, .file _ => []
  | d, .dir cs => go d cs
where
  go : Nat → List (String × Entry) → List String
  | _, [] => []
  | d, (n, e) :: rest =>
    (match e with
     | .file _ => [dashRepeat (max d 1) ++ " " ++ n]
     | .dir _ => (dashRepeat (max d 1) ++ " " ++ n ++ "/") :: specRenderE (d + 1) e) ++
    go d rest

/-- The rendering claim C4 literally states: indentation is the marker
repeated exactly `depth` times, starting at depth 0.  Written from the
claim's words, to be compared with `inspectTop`. -/
def claimRenderE : Nat → Entry → List String
  | _, .file _ => []
  | d, .dir cs => go d cs
where
  go : Nat → List (String × Entry) → List String
  | _, [] => []
  | d, (n, e) :: rest =>
    (match e with
     | .file _ => [dashRepeat d ++ " " ++ n]
     | .dir _ => (dashRepeat d ++ " " ++ n ++ "/") :: claimRenderE (d + 1) e) ++
    go d rest

/-- Size of an entry, for strong induction over the nested tree. -/
def esize : Entry → Nat
  | .file _ => 1
  | .dir cs => 1 + go cs
where
  go : List (String × Entry) → Nat
  | [] => 0
  | (_, e) :: rest => esize e + go rest + 1

/-! ## Concrete worlds used by counterexamples and witnesses

All live under a root with a home directory
`home/u/.config/cargo_preset` (the store) and a working directory `work`. -/

/-- The store path of the concrete worlds. -/
def S0 : List String := ["home", "u", ".config", "cargo_preset"]

/-- A root filesystem with the given store contents and working-directory
contents. -/
def world (store work : List (String × Entry)) : Entry :=
  .dir [("home", .dir [("u", .dir [(".config", .dir [("cargo_preset", .dir store)])])]),
        ("work", .dir work)]

/-- C1's counterexample world: the working directory holds `sub/a.txt`. -/
def fsC1 : Entry := world [] [("sub", .dir [("a.txt", .file "hello")])]

/-- C2's counterexample world: the working directory holds `mydir/f.txt`. -/
def fsC2 : Entry := world [] [("mydir", .dir [("f.txt", .file "x")])]

/-- C3's counterexample world: preset `p` holds `a.txt`, and the working
directory already holds a different `a.txt`. -/
def fsC3 : Entry := world [("p", .dir [("a.txt", .file "new")])] [("a.txt", .file "old")]

/-- A world where preset `p` holds `a.txt` and the working directory is
empty. -/
def fsC3b : Entry := world [("p", .dir [("a.txt", .file "new")])] []

/-- A world with a preset holding a file and a subdirectory. -/
def fsC4 : Entry :=
  world [("p", .dir [("a.txt", .file "x"), ("d", .dir [("b.txt", .file "y")])])] []

/-- A world whose working directory holds a single file `a.txt`. -/
def fsW1 : Entry := world [] [("a.txt", .file "hello")]

/-! ## Child-list lemmas -/

theorem findChild_setChild_self (cs : List (String × Entry)) (n : String) (e : Entry) :
    findChild (setChild cs n e) n = some e := by
  induction cs with
  | nil => simp [setChild, findChild]
  | cons he rest ih =>
    obtain ⟨m, e'⟩ := he
    by_cases h : m = n
    · subst h; simp [setChild, findChild]
    · simp [setChild, findChild, h, ih]

theorem keysOf_nil : keysOf [] = [] := rfl

theorem keysOf_cons (k : String) (e : Entry) (rest : List (String × Entry)) :
    keysOf ((k, e) :: rest) = k :: keysOf rest := rfl

theorem findChild_setChild_ne (cs : List (String × Entry)) {m n : String} (e : Entry)
    (h : m ≠ n) : findChild (setChild cs n e) m = findChild cs m := by
  induction cs with
  | nil => simp [setChild, findChild, Ne.symm h]
  | cons he rest ih =>
    obtain ⟨k, e'⟩ := he
    by_cases hk : k = n
    · subst hk
      have hkm : k ≠ m := fun hkm => h (hkm ▸ rfl)
      simp [setChild, findChild, hkm, Ne.symm hkm]
    · by_cases hm : k = m <;> simp [setChild, findChild, hk, hm, ih, h]

theorem keysOf_setChild_mem (cs : List (String × Entry)) {n : String} (e : Entry)
    (h : n ∈ keysOf cs) : keysOf (setChild cs n e) = keysOf cs := by
  induction cs with
  | nil => simp [keysOf_nil] at h
  | cons he rest ih =>
    obtain ⟨k, e'⟩ := he
    by_cases hk : k = n
    · subst hk; simp [setChild, keysOf_cons]
    · have hr : n ∈ keysOf rest := by
        rw [keysOf_cons] at h
        rcases List.mem_cons.mp h with h | h
        · exact absurd h.symm hk
        · exact h
      simp only [setChild, if_neg hk, keysOf_cons, ih hr]

theorem keysOf_setChild_not_mem (cs : List (String × Entry)) {n : String} (e : Entry)
    (h : n ∉ keysOf cs) : keysOf (setChild cs n e) = keysOf cs ++ [n] := by
  induction cs with
  | nil => simp [setChild, keysOf_nil, keysOf_cons]
  | cons he rest ih =>
    obtain ⟨k, e'⟩ := he
    rw [keysOf_cons] at h
    have hk : k ≠ n := fun hkn => h (by simp [hkn])
    have hr : n ∉ keysOf rest := fun hn => h (List.mem_cons_of_mem _ hn)
    simp only [setChild, if_neg hk, keysOf_cons, ih hr, List.cons_append]

theorem findChild_eq_none_iff (cs : List (String × Entry)) (n : String) :
    findChild cs n = none ↔ n ∉ keysOf cs := by
  induction cs with
  | nil => simp [findChild, keysOf_nil]
  | cons he rest ih =>
    obtain ⟨k, e'⟩ := he
    by_cases hk : k = n
    · subst hk; simp [findChild, keysOf_cons]
    · rw [keysOf_cons]
      simp only [findChild, if_neg hk, ih, List.mem_cons]
      constructor
      · intro hn hor
        rcases hor with hor | hor
        · exact hk hor.symm
        · exact hn hor
      · intro hn hm
        exact hn (Or.inr hm)

theorem not_mem_keysOf_delChild (cs : List (String × Entry)) (n : String) :
    n ∉ keysOf (delChild cs n) := by
  induction cs with
  | nil => simp [delChild, keysOf_nil]
  | cons he rest ih =>
    obtain ⟨k, e'⟩ := he
    by_cases hk : k = n
    · simpa [delChild, hk] using ih
    · simp only [delChild, if_neg hk, keysOf_cons, List.mem_cons]
      intro hor
      rcases hor with hor | hor
      · exact hk hor.symm
      · exact ih hor

/-! ## Lookup lemmas -/

theorem lookup_nil (e : Entry) : lookup e [] = some e := by cases e <;> rfl

theorem lookup_dir_cons (cs : List (String × Entry)) (n : String) (q : List String) :
    lookup (.dir cs) (n :: q) =
      match findChild cs n with
      | some e => lookup e q
      | none => none := rfl

theorem lookup_append (fs : Entry) (p q : List String) :
    lookup fs (p ++ q) = (lookup fs p).bind (fun e => lookup e q) := by
  induction p generalizing fs with
  | nil => simp [lookup]
  | cons n p ih =>
    cases fs with
    | file c => simp [lookup]
    | dir cs =>
      simp only [List.cons_append, lookup_dir_cons]
      cases findChild cs n with
      | none => simp
      | some e => simpa using ih e

theorem lookupFile_append (fs : Entry) (p q : List String) :
    lookupFile fs (p ++ q) =
      match lookup fs p with
      | some e => lookupFile e q
      | none => none := by
  cases h : lookup fs p <;> simp [lookupFile, lookup_append, h]

theorem lookupFile_dir_cons (cs : List (String × Entry)) (n : String) (q : List String) :
    lookupFile (.dir cs) (n :: q) =
      match findChild cs n with
      | some e => lookupFile e q
      | none => none := by
  cases h : findChild cs n <;> simp [lookupFile, lookup_dir_cons, h]

theorem lookupFile_file (c : String) (q : List String) (hq : q ≠ []) :
    lookupFile (.file c) q = none := by
  cases q with
  | nil => exact absurd rfl hq
  | cons n q => simp [lookupFile, lookup]

theorem lookupFile_dir_nil (cs : List (String × Entry)) :
    lookupFile (.dir cs) [] = none := by
  simp [lookupFile, lookup]

theorem childKeys_dir_nil (cs : List (String × Entry)) :
    childKeys (.dir cs) [] = keysOf cs := by
  simp [childKeys, lookup]

theorem childKeys_dir_cons (cs : List (String × Entry)) (n : String) (q : List String) :
    childKeys (.dir cs) (n :: q) =
      match findChild cs n with
      | some e => childKeys e q
      | none => [] := by
  cases h : findChild cs n <;> simp [childKeys, lookup_dir_cons, h]

theorem childKeys_file (c : String) (r : List String) :
    childKeys (.file c) r = [] := by
  cases r <;> simp [childKeys, lookup]

/-! ## Independence lemmas -/

theorem Indep.symm {a b : List String} (h : Indep a b) : Indep b a := ⟨h.2, h.1⟩

theorem Indep.of_cons {x : String} {a b : List String} (h : Indep (x :: a) (x :: b)) :
    Indep a b := by
  constructor
  · exact fun hp => h.1 (by simpa [List.cons_prefix_cons] using hp)
  · exact fun hp => h.2 (by simpa [List.cons_prefix_cons] using hp)

theorem Indep.not_nil_left {b : List String} (h : Indep [] b) : False :=
  h.1 List.nil_prefix

theorem Indep.append {a b : List String} (h : Indep a b) (x y : List String) :
    Indep (a ++ x) (b ++ y) := by
  constructor
  · intro hp
    have ha : a <+: b ++ y := (List.prefix_append a x).trans hp
    rcases List.prefix_or_prefix_of_prefix ha (List.prefix_append b y) with hab | hba
    · exact h.1 hab
    · exact h.2 hba
  · intro hp
    have hb : b <+: a ++ x := (List.prefix_append b y).trans hp
    rcases List.prefix_or_prefix_of_prefix hb (List.prefix_append a x) with hba | hab
    · exact h.2 hba
    · exact h.1 hab

theorem Indep.ne_append {a b x y : List String} (h : Indep a b) : a ++ x ≠ b ++ y := by
  intro he
  exact (h.append x y).1 (he ▸ List.prefix_rfl)

theorem Indep.append_right {a b : List String} (h : Indep a b) (y : List String) :
    Indep a (b ++ y) := by
  have := h.append [] y
  simpa using this

theorem Indep.ne_right_append {a b y : List String} (h : Indep a b) : a ≠ b ++ y := by
  intro he
  exact (h.append_right y).1 (he ▸ List.prefix_rfl)

/-! ## `writeFile` lemmas -/

/-- Successful `writeFile` at `p = [n]` sets the child and the previous
child was not a directory. -/
theorem writeFile_single_elim {cs : List (String × Entry)} {n : String} {c : String}
    {fs' : Entry} (h : writeFile (.dir cs) [n] c = some fs') :
    fs' = .dir (setChild cs n (.file c)) ∧
      (findChild cs n = none ∨ ∃ c', findChild cs n = some (.file c')) := by
  simp only [writeFile] at h
  cases hf : findChild cs n with
  | none => rw [hf] at h; injection h with h; exact ⟨h.symm, Or.inl rfl⟩
  | some e =>
    rw [hf] at h
    cases e with
    | file c' => injection h with h; exact ⟨h.symm, Or.inr ⟨c', rfl⟩⟩
    | dir _ => exact absurd h (by simp)

/-- Successful `writeFile` at `p = n :: k :: qt` recurses into the existing
child `n`. -/
theorem writeFile_step_elim {cs : List (String × Entry)} {n k : String} {qt : List String}
    {c : String} {fs' : Entry} (h : writeFile (.dir cs) (n :: k :: qt) c = some fs') :
    ∃ e e', findChild cs n = some e ∧ writeFile e (k :: qt) c = some e' ∧
      fs' = .dir (setChild cs n e') := by
  simp only [writeFile] at h
  cases hf : findChild cs n with
  | none => rw [hf] at h; exact absurd h (by simp)
  | some e =>
    rw [hf] at h
    rcases Option.map_eq_some'.mp h with ⟨e', he', heq⟩
    exact ⟨e, e', rfl, he', heq.symm⟩

theorem writeFile_lookupFile_self {fs fs' : Entry} {p : List String} {c : String}
    (h : writeFile fs p c = some fs') : lookupFile fs' p = some c := by
  induction p generalizing fs fs' with
  | nil => simp [writeFile] at h
  | cons n tail ih =>
    cases fs with
    | file _ => simp [writeFile] at h
    | dir cs =>
      cases tail with
      | nil =>
        obtain ⟨rfl, _⟩ := writeFile_single_elim h
        simp [lookupFile_dir_cons, findChild_setChild_self, lookupFile, lookup]
      | cons m q =>
        obtain ⟨e, e', hf, he', rfl⟩ := writeFile_step_elim h
        rw [lookupFile_dir_cons, findChild_setChild_self]
        exact ih he'

theorem writeFile_lookupFile_of_ne {fs fs' : Entry} {p : List String} {c : String}
    (h : writeFile fs p c = some fs') {q : List String} (hq : q ≠ p) :
    lookupFile fs' q = lookupFile fs q := by
  induction p generalizing fs fs' q with
  | nil => simp [writeFile] at h
  | cons n tail ih =>
    cases fs with
    | file _ => simp [writeFile] at h
    | dir cs =>
      cases tail with
      | nil =>
        obtain ⟨rfl, hold⟩ := writeFile_single_elim h
        cases q with
        | nil => simp [lookupFile_dir_nil]
        | cons m q' =>
          by_cases hm : m = n
          · subst hm
            have hq'ne : q' ≠ [] := fun hx => hq (by rw [hx])
            rcases hold with hold | ⟨c', hold⟩ <;>
              simp [lookupFile_dir_cons, findChild_setChild_self, hold,
                lookupFile_file _ _ hq'ne]
          · simp [lookupFile_dir_cons, findChild_setChild_ne cs _ hm]
      | cons k qt =>
        obtain ⟨e, e', hf, he', rfl⟩ := writeFile_step_elim h
        cases q with
        | nil => simp [lookupFile_dir_nil]
        | cons m q' =>
          by_cases hm : m = n
          · subst hm
            have hq' : q' ≠ k :: qt := fun hx => hq (by rw [hx])
            simp only [lookupFile_dir_cons, findChild_setChild_self, hf]
            exact ih he' hq'
          · simp [lookupFile_dir_cons, findChild_setChild_ne cs _ hm]

theorem writeFile_isDir_mono {fs fs' : Entry} {p : List String} {c : String}
    (h : writeFile fs p c = some fs') {q : List String} (hq : isDir fs q) :
    isDir fs' q := by
  induction p generalizing fs fs' q with
  | nil => simp [writeFile] at h
  | cons n tail ih =>
    cases fs with
    | file _ => simp [writeFile] at h
    | dir cs =>
      cases tail with
      | nil =>
        obtain ⟨rfl, hold⟩ := writeFile_single_elim h
        cases q with
        | nil => exact ⟨_, rfl⟩
        | cons m q' =>
          obtain ⟨ds, hds⟩ := hq
          by_cases hm : m = n
          · subst hm
            rw [lookup_dir_cons] at hds
            exfalso
            rcases hold with hold | ⟨c', hold⟩ <;> rw [hold] at hds
            · simp at hds
            · cases q' with
              | nil => simp [lookup] at hds
              | cons _ _ => simp [lookup] at hds
          · refine ⟨ds, ?_⟩
            rw [lookup_dir_cons] at hds ⊢
            rw [findChild_setChild_ne cs _ hm]
            exact hds
      | cons k qt =>
        obtain ⟨e, e', hf, he', rfl⟩ := writeFile_step_elim h
        cases q with
        | nil => exact ⟨_, rfl⟩
        | cons m q' =>
          obtain ⟨ds, hds⟩ := hq
          rw [lookup_dir_cons] at hds
          by_cases hm : m = n
          · subst hm
            rw [hf] at hds
            obtain ⟨ds', hds'⟩ := ih he' ⟨ds, hds⟩
            refine ⟨ds', ?_⟩
            rw [lookup_dir_cons, findChild_setChild_self]
            exact hds'
          · refine ⟨ds, ?_⟩
            rw [lookup_dir_cons, findChild_setChild_ne cs _ hm]
            exact hds

theorem writeFile_frame {fs fs' : Entry} {p : List String} {c : String}
    (h : writeFile fs p c = some fs') {q : List String} (hq : Indep q p) :
    lookup fs' q = lookup fs q := by
  induction p generalizing fs fs' q with
  | nil => simp [writeFile] at h
  | cons n tail ih =>
    cases fs with
    | file _ => simp [writeFile] at h
    | dir cs =>
      cases q with
      | nil => exact hq.not_nil_left.elim
      | cons m q' =>
        by_cases hm : m = n
        · subst hm
          cases tail with
          | nil =>
            exact absurd (show [m] <+: m :: q' by
              simp [List.cons_prefix_cons]) hq.2
          | cons k qt =>
            obtain ⟨e, e', hf, he', rfl⟩ := writeFile_step_elim h
            rw [lookup_dir_cons, lookup_dir_cons, findChild_setChild_self, hf]
            exact ih he' hq.of_cons
        · have hcs' : ∃ cs', fs' = .dir cs' ∧ findChild cs' m = findChild cs m := by
            cases tail with
            | nil =>
              obtain ⟨rfl, _⟩ := writeFile_single_elim h
              exact ⟨_, rfl, findChild_setChild_ne cs _ hm⟩
            | cons k qt =>
              obtain ⟨e, e', hf, he', rfl⟩ := writeFile_step_elim h
              exact ⟨_, rfl, findChild_setChild_ne cs _ hm⟩
          obtain ⟨cs', rfl, hfc⟩ := hcs'
          rw [lookup_dir_cons, lookup_dir_cons, hfc]

theorem mem_keysOf_of_findChild {cs : List (String × Entry)} {n : String} {e : Entry}
    (h : findChild cs n = some e) : n ∈ keysOf cs := by
  by_contra hn
  rw [(findChild_eq_none_iff cs n).mpr hn] at h
  cases h

theorem lookup_empty_dir {q : List String} (hq : q ≠ []) : lookup (.dir []) q = none := by
  cases q with
  | nil => exact absurd rfl hq
  | cons n q => simp [lookup_dir_cons, findChild]

theorem lookupFile_empty_dir (q : List String) : lookupFile (.dir []) q = none := by
  cases q with
  | nil => exact lookupFile_dir_nil []
  | cons n q => simp [lookupFile_dir_cons, findChild]

theorem childKeys_empty_dir {q : List String} (hq : q ≠ []) :
    childKeys (.dir []) q = [] := by
  cases q with
  | nil => exact absurd rfl hq
  | cons n q => simp [childKeys_dir_cons, findChild]

/-- Preservation of "the directory at `r` lists the name `k` exactly once"
under a successful `writeFile`. -/
theorem writeFile_count {fs fs' : Entry} {p : List String} {c : String}
    (h : writeFile fs p c = some fs') {r : List String} {k : String}
    (hc : (childKeys fs r).count k = 1) : (childKeys fs' r).count k = 1 := by
  induction p generalizing fs fs' r with
  | nil => simp [writeFile] at h
  | cons n tail ih =>
    cases fs with
    | file _ => simp [writeFile] at h
    | dir cs =>
      cases tail with
      | nil =>
        obtain ⟨rfl, hold⟩ := writeFile_single_elim h
        cases r with
        | nil =>
          rw [childKeys_dir_nil] at hc ⊢
          by_cases hn : n ∈ keysOf cs
          · rw [keysOf_setChild_mem cs _ hn]; exact hc
          · rw [keysOf_setChild_not_mem cs _ hn, List.count_append]
            by_cases hk : k = n
            · subst hk
              exact absurd (List.count_pos_iff.mp (by rw [hc]; norm_num)) hn
            · simpa [List.count_singleton, hk] using hc
        | cons m r' =>
          by_cases hm : m = n
          · subst hm
            exfalso
            rw [childKeys_dir_cons] at hc
            rcases hold with hold | ⟨c', hold⟩ <;> rw [hold] at hc <;>
              simp [childKeys_file] at hc
          · rw [childKeys_dir_cons, findChild_setChild_ne cs _ hm]
            rw [childKeys_dir_cons] at hc
            exact hc
      | cons kk qt =>
        obtain ⟨e, e', hf, he', rfl⟩ := writeFile_step_elim h
        cases r with
        | nil =>
          rw [childKeys_dir_nil] at hc ⊢
          rw [keysOf_setChild_mem cs _ (mem_keysOf_of_findChild hf)]
          exact hc
        | cons m r' =>
          by_cases hm : m = n
          · subst hm
            rw [childKeys_dir_cons, findChild_setChild_self]
            rw [childKeys_dir_cons, hf] at hc
            exact ih he' hc
          · rw [childKeys_dir_cons, findChild_setChild_ne cs _ hm]
            rw [childKeys_dir_cons] at hc
            exact hc

/-! ## `mkdir` lemmas -/

theorem mkdir_single_elim {cs : List (String × Entry)} {n : String} {fs' : Entry}
    (h : mkdir (.dir cs) [n] = some fs') :
    fs' = .dir (setChild cs n (.dir [])) ∧ findChild cs n = none := by
  simp only [mkdir] at h
  cases hf : findChild cs n with
  | none => rw [hf] at h; injection h with h; exact ⟨h.symm, rfl⟩
  | some e => rw [hf] at h; exact absurd h (by simp)

theorem mkdir_cons_elim {cs : List (String × Entry)} {n : String} {tail : List String}
    {fs' : Entry} (ht : tail ≠ []) (h : mkdir (.dir cs) (n :: tail) = some fs') :
    ∃ e e', findChild cs n = some e ∧ mkdir e tail = some e' ∧
      fs' = .dir (setChild cs n e') := by
  cases tail with
  | nil => exact absurd rfl ht
  | cons k qt =>
    simp only [mkdir] at h
    cases hf : findChild cs n with
    | none => rw [hf] at h; exact absurd h (by simp)
    | some e =>
      rw [hf] at h
      rcases Option.map_eq_some'.mp h with ⟨e', he', heq⟩
      exact ⟨e, e', rfl, he', heq.symm⟩

theorem mkdir_lookupFile {fs fs' : Entry} {p : List String}
    (h : mkdir fs p = some fs') (q : List String) :
    lookupFile fs' q = lookupFile fs q := by
  induction p generalizing fs fs' q with
  | nil => simp [mkdir] at h
  | cons n tail ih =>
    cases fs with
    | file _ => simp [mkdir] at h
    | dir cs =>
      cases tail with
      | nil =>
        obtain ⟨rfl, hold⟩ := mkdir_single_elim h
        cases q with
        | nil => simp [lookupFile_dir_nil]
        | cons m q' =>
          by_cases hm : m = n
          · subst hm
            simp [lookupFile_dir_cons, findChild_setChild_self, hold,
              lookupFile_empty_dir]
          · simp [lookupFile_dir_cons, findChild_setChild_ne cs _ hm]
      | cons k qt =>
        obtain ⟨e, e', hf, he', rfl⟩ := mkdir_cons_elim (by simp) h
        cases q with
        | nil => simp [lookupFile_dir_nil]
        | cons m q' =>
          by_cases hm : m = n
          · subst hm
            simp only [lookupFile_dir_cons, findChild_setChild_self, hf]
            exact ih he' q'
          · simp [lookupFile_dir_cons, findChild_setChild_ne cs _ hm]

theorem mkdir_frame {fs fs' : Entry} {p : List String}
    (h : mkdir fs p = some fs') {q : List String} (hq : Indep q p) :
    lookup fs' q = lookup fs q := by
  induction p generalizing fs fs' q with
  | nil => simp [mkdir] at h
  | cons n tail ih =>
    cases fs with
    | file _ => simp [mkdir] at h
    | dir cs =>
      cases q with
      | nil => exact hq.not_nil_left.elim
      | cons m q' =>
        by_cases hm : m = n
        · subst hm
          cases tail with
          | nil =>
            exact absurd (show [m] <+: m :: q' by simp [List.cons_prefix_cons]) hq.2
          | cons k qt =>
            obtain ⟨e, e', hf, he', rfl⟩ := mkdir_cons_elim (by simp) h
            rw [lookup_dir_cons, lookup_dir_cons, findChild_setChild_self, hf]
            exact ih he' hq.of_cons
        · have hcs' : ∃ cs', fs' = .dir cs' ∧ findChild cs' m = findChild cs m := by
            cases tail with
            | nil =>
              obtain ⟨rfl, _⟩ := mkdir_single_elim h
              exact ⟨_, rfl, findChild_setChild_ne cs _ hm⟩
            | cons k qt =>
              obtain ⟨e, e', hf, he', rfl⟩ := mkdir_cons_elim (by simp) h
              exact ⟨_, rfl, findChild_setChild_ne cs _ hm⟩
          obtain ⟨cs', rfl, hfc⟩ := hcs'
          rw [lookup_dir_cons, lookup_dir_cons, hfc]

theorem mkdir_isDir_mono {fs fs' : Entry} {p : List String}
    (h : mkdir fs p = some fs') {q : List String} (hq : isDir fs q) :
    isDir fs' q := by
  induction p generalizing fs fs' q with
  | nil => simp [mkdir] at h
  | cons n tail ih =>
    cases fs with
    | file _ => simp [mkdir] at h
    | dir cs =>
      cases tail with
      | nil =>
        obtain ⟨rfl, hold⟩ := mkdir_single_elim h
        cases q with
        | nil => exact ⟨_, rfl⟩
        | cons m q' =>
          obtain ⟨ds, hds⟩ := hq
          rw [lookup_dir_cons] at hds
          by_cases hm : m = n
          · subst hm; rw [hold] at hds; simp at hds
          · refine ⟨ds, ?_⟩
            rw [lookup_dir_cons, findChild_setChild_ne cs _ hm]
            exact hds
      | cons k qt =>
        obtain ⟨e, e', hf, he', rfl⟩ := mkdir_cons_elim (by simp) h
        cases q with
        | nil => exact ⟨_, rfl⟩
        | cons m q' =>
          obtain ⟨ds, hds⟩ := hq
          rw [lookup_dir_cons] at hds
          by_cases hm : m = n
          · subst hm
            rw [hf] at hds
            obtain ⟨ds', hds'⟩ := ih he' ⟨ds, hds⟩
            refine ⟨ds', ?_⟩
            rw [lookup_dir_cons, findChild_setChild_self]
            exact hds'
          · refine ⟨ds, ?_⟩
            rw [lookup_dir_cons, findChild_setChild_ne cs _ hm]
            exact hds

theorem mkdir_isDir_self {fs fs' : Entry} {p : List String}
    (h : mkdir fs p = some fs') : isDir fs' p := by
  induction p generalizing fs fs' with
  | nil => simp [mkdir] at h
  | cons n tail ih =>
    cases fs with
    | file _ => simp [mkdir] at h
    | dir cs =>
      cases tail with
      | nil =>
        obtain ⟨rfl, _⟩ := mkdir_single_elim h
        exact ⟨[], by rw [lookup_dir_cons, findChild_setChild_self]; rfl⟩
      | cons k qt =>
        obtain ⟨e, e', hf, he', rfl⟩ := mkdir_cons_elim (by simp) h
        obtain ⟨ds, hds⟩ := ih he'
        refine ⟨ds, ?_⟩
        rw [lookup_dir_cons, findChild_setChild_self]
        exact hds

theorem mkdir_count {fs fs' : Entry} {p : List String}
    (h : mkdir fs p = some fs') {r : List String} {k : String}
    (hc : (childKeys fs r).count k = 1) : (childKeys fs' r).count k = 1 := by
  induction p generalizing fs fs' r with
  | nil => simp [mkdir] at h
  | cons n tail ih =>
    cases fs with
    | file _ => simp [mkdir] at h
    | dir cs =>
      cases tail with
      | nil =>
        obtain ⟨rfl, hold⟩ := mkdir_single_elim h
        cases r with
        | nil =>
          rw [childKeys_dir_nil] at hc ⊢
          have hn : n ∉ keysOf cs := (findChild_eq_none_iff cs n).mp hold
          rw [keysOf_setChild_not_mem cs _ hn, List.count_append]
          by_cases hk : k = n
          · subst hk
            exact absurd (List.count_pos_iff.mp (by rw [hc]; norm_num)) hn
          · simpa [List.count_singleton, hk] using hc
        | cons m r' =>
          by_cases hm : m = n
          · subst hm
            rw [childKeys_dir_cons, hold] at hc
            simp at hc
          · rw [childKeys_dir_cons, findChild_setChild_ne cs _ hm]
            rw [childKeys_dir_cons] at hc
            exact hc
      | cons kk qt =>
        obtain ⟨e, e', hf, he', rfl⟩ := mkdir_cons_elim (by simp) h
        cases r with
        | nil =>
          rw [childKeys_dir_nil] at hc ⊢
          rw [keysOf_setChild_mem cs _ (mem_keysOf_of_findChild hf)]
          exact hc
        | cons m r' =>
          by_cases hm : m = n
          · subst hm
            rw [childKeys_dir_cons, findChild_setChild_self]
            rw [childKeys_dir_cons, hf] at hc
            exact ih he' hc
          · rw [childKeys_dir_cons, findChild_setChild_ne cs _ hm]
            rw [childKeys_dir_cons] at hc
            exact hc

theorem mkdir_childKeys_parent {fs fs' : Entry} {r : List String} {n : String}
    (h : mkdir fs (r ++ [n]) = some fs') :
    childKeys fs' r = childKeys fs r ++ [n] := by
  induction r generalizing fs fs' with
  | nil =>
    cases fs with
    | file _ => simp [mkdir] at h
    | dir cs =>
      obtain ⟨rfl, hold⟩ := mkdir_single_elim h
      rw [childKeys_dir_nil, childKeys_dir_nil]
      exact keysOf_setChild_not_mem cs _ ((findChild_eq_none_iff cs n).mp hold)
  | cons m r' ih =>
    cases fs with
    | file _ => simp [mkdir] at h
    | dir cs =>
      obtain ⟨e, e', hf, he', rfl⟩ := mkdir_cons_elim (by simp) h
      rw [childKeys_dir_cons, findChild_setChild_self, childKeys_dir_cons, hf]
      exact ih he'

theorem mkdir_succeeds {fs : Entry} {r : List String} {n : String}
    (hdir : isDir fs r) (habs : lookup fs (r ++ [n]) = none) :
    ∃ fs', mkdir fs (r ++ [n]) = some fs' := by
  induction r generalizing fs with
  | nil =>
    obtain ⟨cs, hcs⟩ := hdir
    have hfs : fs = .dir cs := by
      rw [lookup_nil] at hcs
      exact Option.some.inj hcs
    subst hfs
    have hf : findChild cs n = none := by
      rw [List.nil_append, lookup_dir_cons] at habs
      cases hf : findChild cs n with
      | none => rfl
      | some e => rw [hf] at habs; simp [lookup] at habs
    refine ⟨.dir (setChild cs n (.dir [])), ?_⟩
    simp [mkdir, hf]
  | cons m r' ih =>
    obtain ⟨cs, hcs⟩ := hdir
    cases fs with
    | file _ => simp [lookup] at hcs
    | dir cs0 =>
      rw [lookup_dir_cons] at hcs
      cases hf : findChild cs0 m with
      | none => rw [hf] at hcs; cases hcs
      | some e =>
        rw [hf] at hcs
        rw [List.cons_append, lookup_dir_cons, hf] at habs
        obtain ⟨e', he'⟩ := ih ⟨cs, hcs⟩ habs
        refine ⟨.dir (setChild cs0 m e'), ?_⟩
        have hne : r' ++ [n] ≠ [] := by simp
        cases hrn : r' ++ [n] with
        | nil => exact absurd hrn hne
        | cons k qt =>
          rw [List.cons_append, hrn]
          rw [hrn] at he'
          simp [mkdir, hf, he']

/-! ## `mkdirAll` lemmas -/

theorem mkdirAll_nil_elim {fs fs' : Entry} (h : mkdirAll fs [] = some fs') : fs' = fs := by
  cases fs with
  | file _ => simp [mkdirAll] at h
  | dir cs => simp only [mkdirAll] at h; exact (Option.some.inj h).symm

theorem mkdirAll_cons_elim {cs : List (String × Entry)} {n : String} {q : List String}
    {fs' : Entry} (h : mkdirAll (.dir cs) (n :: q) = some fs') :
    ∃ e', mkdirAll (childOr cs n) q = some e' ∧ fs' = .dir (setChild cs n e') := by
  simp only [mkdirAll] at h
  rcases Option.map_eq_some'.mp h with ⟨e', he', heq⟩
  exact ⟨e', he', heq.symm⟩

theorem mkdirAll_lookupFile {fs fs' : Entry} {p : List String}
    (h : mkdirAll fs p = some fs') (q : List String) :
    lookupFile fs' q = lookupFile fs q := by
  induction p generalizing fs fs' q with
  | nil => rw [mkdirAll_nil_elim h]
  | cons n tail ih =>
    cases fs with
    | file _ => simp [mkdirAll] at h
    | dir cs =>
      obtain ⟨e', he', rfl⟩ := mkdirAll_cons_elim h
      cases q with
      | nil => simp [lookupFile_dir_nil]
      | cons m q' =>
        by_cases hm : m = n
        · subst hm
          rw [lookupFile_dir_cons, findChild_setChild_self]
          show lookupFile e' q' = _
          rw [ih he' q', lookupFile_dir_cons]
          unfold childOr
          cases hf : findChild cs m with
          | none => simp [lookupFile_empty_dir]
          | some e => simp
        · simp [lookupFile_dir_cons, findChild_setChild_ne cs _ hm]

theorem mkdirAll_frame {fs fs' : Entry} {p : List String}
    (h : mkdirAll fs p = some fs') {q : List String} (hq : Indep q p) :
    lookup fs' q = lookup fs q := by
  induction p generalizing fs fs' q with
  | nil => rw [mkdirAll_nil_elim h]
  | cons n tail ih =>
    cases fs with
    | file _ => simp [mkdirAll] at h
    | dir cs =>
      obtain ⟨e', he', rfl⟩ := mkdirAll_cons_elim h
      cases q with
      | nil => exact hq.not_nil_left.elim
      | cons m q' =>
        by_cases hm : m = n
        · subst hm
          have hq' : q' ≠ [] := by
            intro hx
            subst hx
            exact hq.1 (by simp [List.cons_prefix_cons])
          rw [lookup_dir_cons, findChild_setChild_self]
          show lookup e' q' = _
          rw [ih he' hq.of_cons, lookup_dir_cons]
          unfold childOr
          cases hf : findChild cs m with
          | none => simp [lookup_empty_dir hq']
          | some e => simp
        · simp [lookup_dir_cons, findChild_setChild_ne cs _ hm]

theorem mkdirAll_isDir_mono {fs fs' : Entry} {p : List String}
    (h : mkdirAll fs p = some fs') {q : List String} (hq : isDir fs q) :
    isDir fs' q := by
  induction p generalizing fs fs' q with
  | nil => rw [mkdirAll_nil_elim h]; exact hq
  | cons n tail ih =>
    cases fs with
    | file _ => simp [mkdirAll] at h
    | dir cs =>
      obtain ⟨e', he', rfl⟩ := mkdirAll_cons_elim h
      cases q with
      | nil => exact ⟨_, rfl⟩
      | cons m q' =>
        obtain ⟨ds, hds⟩ := hq
        rw [lookup_dir_cons] at hds
        by_cases hm : m = n
        · subst hm
          cases hf : findChild cs m with
          | none => rw [hf] at hds; cases hds
          | some e =>
            rw [hf] at hds
            have hsub : isDir (childOr cs m) q' := by
              unfold childOr
              rw [hf]
              exact ⟨ds, hds⟩
            obtain ⟨ds', hds'⟩ := ih he' hsub
            refine ⟨ds', ?_⟩
            rw [lookup_dir_cons, findChild_setChild_self]
            exact hds'
        · refine ⟨ds, ?_⟩
          rw [lookup_dir_cons, findChild_setChild_ne cs _ hm]
          exact hds

theorem mkdirAll_count {fs fs' : Entry} {p : List String}
    (h : mkdirAll fs p = some fs') {r : List String} {k : String}
    (hc : (childKeys fs r).count k = 1) : (childKeys fs' r).count k = 1 := by
  induction p generalizing fs fs' r with
  | nil => rw [mkdirAll_nil_elim h]; exact hc
  | cons n tail ih =>
    cases fs with
    | file _ => simp [mkdirAll] at h
    | dir cs =>
      obtain ⟨e', he', rfl⟩ := mkdirAll_cons_elim h
      cases r with
      | nil =>
        rw [childKeys_dir_nil] at hc ⊢
        by_cases hn : n ∈ keysOf cs
        · rw [keysOf_setChild_mem cs _ hn]; exact hc
        · rw [keysOf_setChild_not_mem cs _ hn, List.count_append]
          by_cases hk : k = n
          · subst hk
            exact absurd (List.count_pos_iff.mp (by rw [hc]; norm_num)) hn
          · simpa [List.count_singleton, hk] using hc
      | cons m r' =>
        by_cases hm : m = n
        · subst hm
          rw [childKeys_dir_cons, findChild_setChild_self]
          rw [childKeys_dir_cons] at hc
          cases hf : findChild cs m with
          | none => rw [hf] at hc; simp at hc
          | some e =>
            rw [hf] at hc
            have hsub : (childKeys (childOr cs m) r').count k = 1 := by
              unfold childOr
              rw [hf]
              exact hc
            exact ih he' hsub
        · rw [childKeys_dir_cons, findChild_setChild_ne cs _ hm]
          rw [childKeys_dir_cons] at hc
          exact hc

/-! ## `removeDirAll` lemmas -/

theorem removeDirAll_single_elim {cs : List (String × Entry)} {n : String} {fs' : Entry}
    (h : removeDirAll (.dir cs) [n] = some fs') :
    fs' = .dir (delChild cs n) ∧ ∃ ds, findChild cs n = some (.dir ds) := by
  simp only [removeDirAll] at h
  cases hf : findChild cs n with
  | none => rw [hf] at h; exact absurd h (by simp)
  | some e =>
    rw [hf] at h
    cases e with
    | file _ => exact absurd h (by simp)
    | dir ds => injection h with h; exact ⟨h.symm, ds, rfl⟩

theorem removeDirAll_cons_elim {cs : List (String × Entry)} {n : String}
    {tail : List String} {fs' : Entry} (ht : tail ≠ [])
    (h : removeDirAll (.dir cs) (n :: tail) = some fs') :
    ∃ e e', findChild cs n = some e ∧ removeDirAll e tail = some e' ∧
      fs' = .dir (setChild cs n e') := by
  cases tail with
  | nil => exact absurd rfl ht
  | cons k qt =>
    simp only [removeDirAll] at h
    cases hf : findChild cs n with
    | none => rw [hf] at h; exact absurd h (by simp)
    | some e =>
      rw [hf] at h
      rcases Option.map_eq_some'.mp h with ⟨e', he', heq⟩
      exact ⟨e, e', rfl, he', heq.symm⟩

theorem removeDirAll_childKeys {fs fs' : Entry} {r : List String} {n : String}
    (h : removeDirAll fs (r ++ [n]) = some fs') : n ∉ childKeys fs' r := by
  induction r generalizing fs fs' with
  | nil =>
    cases fs with
    | file _ => simp [removeDirAll] at h
    | dir cs =>
      obtain ⟨rfl, _⟩ := removeDirAll_single_elim h
      rw [childKeys_dir_nil]
      exact not_mem_keysOf_delChild cs n
  | cons m r' ih =>
    cases fs with
    | file _ => simp [removeDirAll] at h
    | dir cs =>
      obtain ⟨e, e', hf, he', rfl⟩ := removeDirAll_cons_elim (by simp) h
      rw [childKeys_dir_cons, findChild_setChild_self]
      exact ih he'

theorem removeDirAll_none_of_not_dir {fs : Entry} {p : List String}
    (h : ∀ ds, lookup fs p ≠ some (.dir ds)) (hp : p ≠ []) :
    removeDirAll fs p = none := by
  induction p generalizing fs with
  | nil => exact absurd rfl hp
  | cons n tail ih =>
    cases fs with
    | file _ =>
      cases tail <;> simp [removeDirAll]
    | dir cs =>
      cases tail with
      | nil =>
        simp only [removeDirAll]
        cases hf : findChild cs n with
        | none => simp
        | some e =>
          cases e with
          | file _ => simp
          | dir ds =>
            exact absurd (by rw [lookup_dir_cons, hf]; exact lookup_nil _) (h ds)
      | cons k qt =>
        simp only [removeDirAll]
        cases hf : findChild cs n with
        | none => simp
        | some e =>
          have : removeDirAll e (k :: qt) = none := by
            refine ih ?_ (by simp)
            intro ds hds
            exact h ds (by rw [lookup_dir_cons, hf]; exact hds)
          simp [this]

/-! ## Generic fold lemmas over `Except` -/

theorem except_bind_ok {ε σ α : Type} {x : Except ε σ} {f : σ → Except ε α} {b : α}
    (h : (x >>= f) = .ok b) : ∃ a, x = .ok a ∧ f a = .ok b := by
  cases x with
  | ok a => exact ⟨a, rfl, h⟩
  | error e => simp [Bind.bind, Except.bind] at h

/-- An invariant holding of the initial state and preserved by every
successful step holds of the final state of a successful fold. -/
theorem foldlM_ok_preserve {ε σ α : Type} (step : σ → α → Except ε σ) (P : σ → Prop)
    (l : List α) (hstep : ∀ s a s', a ∈ l → step s a = .ok s' → P s → P s') :
    ∀ {s s' : σ}, l.foldlM step s = .ok s' → P s → P s' := by
  induction l with
  | nil =>
    intro s s' h hp
    rw [List.foldlM_nil] at h
    cases h
    exact hp
  | cons a l ih =>
    intro s s' h hp
    rw [List.foldlM_cons] at h
    obtain ⟨mid, hmid, hrest⟩ := except_bind_ok h
    exact ih (fun s a s' ha => hstep s a s' (List.mem_cons_of_mem _ ha))
      hrest (hstep s a mid (List.mem_cons_self a l) hmid hp)

/-- Trace one element through a successful fold: an invariant `P` carries
the state to the element's own step, the step establishes `Q`, and `Q` is
preserved by the remaining steps. -/
theorem foldlM_trace {ε σ α : Type} (step : σ → α → Except ε σ) (P Q : σ → Prop)
    (a₀ : α) (l : List α)
    (hP : ∀ s a s', a ∈ l → step s a = .ok s' → P s → P s')
    (hQ : ∀ s a s', a ∈ l → step s a = .ok s' → Q s → Q s')
    (hkey : ∀ s s', P s → step s a₀ = .ok s' → Q s')
    (ha : a₀ ∈ l) :
    ∀ {s s' : σ}, l.foldlM step s = .ok s' → P s → Q s' := by
  induction l with
  | nil => cases ha
  | cons a l ih =>
    intro s s' h hp
    rw [List.foldlM_cons] at h
    obtain ⟨mid, hmid, hrest⟩ := except_bind_ok h
    rcases List.mem_cons.mp ha with rfl | ha'
    · exact foldlM_ok_preserve step Q l
        (fun s a s' ha => hQ s a s' (List.mem_cons_of_mem _ ha))
        hrest (hkey s mid hp hmid)
    · exact ih (fun s a s' ha => hP s a s' (List.mem_cons_of_mem _ ha))
        (fun s a s' ha => hQ s a s' (List.mem_cons_of_mem _ ha))
        ha' hrest
        (hP s a mid (List.mem_cons_self a l) hmid hp)

/-! ## Collected file paths and lookups -/

theorem mem_collectL_of_findChild {cs : List (String × Entry)} {n : String} {e : Entry}
    (hf : findChild cs n = some e) {q : List String}
    (hq : q ∈ collectFilePaths e) : (n :: q) ∈ collectFilePaths.collectL cs := by
  induction cs with
  | nil => simp [findChild] at hf
  | cons he rest ih =>
    obtain ⟨m, e'⟩ := he
    simp only [findChild] at hf
    by_cases hm : m = n
    · rw [if_pos hm] at hf
      injection hf with hf
      subst hf hm
      simp only [collectFilePaths.collectL, List.mem_append]
      exact Or.inl (List.mem_map.mpr ⟨q, hq, rfl⟩)
    · rw [if_neg hm] at hf
      simp only [collectFilePaths.collectL, List.mem_append]
      exact Or.inr (ih hf)

theorem mem_collect_of_lookupFile : ∀ {q : List String} {e : Entry} {c : String},
    lookupFile e q = some c → q ∈ collectFilePaths e := by
  intro q
  induction q with
  | nil =>
    intro e c h
    cases e with
    | file c' => simp [collectFilePaths]
    | dir cs => rw [lookupFile_dir_nil] at h; cases h
  | cons n q' ih =>
    intro e c h
    cases e with
    | file c' => rw [lookupFile_file _ _ (by simp)] at h; cases h
    | dir cs =>
      rw [lookupFile_dir_cons] at h
      cases hf : findChild cs n with
      | none => rw [hf] at h; cases h
      | some e'' =>
        rw [hf] at h
        exact mem_collectL_of_findChild hf (ih h)

/-! ## `fs_extra` step lemmas -/

theorem copyDirsStep_ok_elim {opts : FECopyOptions} {R d : List String} {acc acc' : Entry}
    (h : copyDirsStep opts R acc d = .ok acc') :
    acc' = acc ∨ mkdirAll acc (R ++ d) = some acc' ∨ mkdir acc (R ++ d) = some acc' := by
  unfold copyDirsStep at h
  by_cases h1 : (lookup acc (R ++ d)).isSome
  · rw [if_pos h1] at h
    injection h with h
    exact Or.inl h.symm
  · rw [if_neg h1] at h
    cases hci : opts.copy_inside with
    | true =>
      rw [hci] at h
      simp only [if_pos] at h
      cases hm : mkdirAll acc (R ++ d) with
      | none => rw [hm] at h; exact absurd h (by simp)
      | some a =>
        rw [hm] at h
        injection h with h
        subst h
        exact Or.inr (Or.inl rfl)
    | false =>
      rw [hci] at h
      simp only [Bool.false_eq_true, if_false] at h
      cases hm : mkdir acc (R ++ d) with
      | none => rw [hm] at h; exact absurd h (by simp)
      | some a =>
        rw [hm] at h
        injection h with h
        subst h
        exact Or.inr (Or.inr rfl)

theorem copyDirsStep_lookupFile {opts : FECopyOptions} {R d : List String}
    {acc acc' : Entry} (h : copyDirsStep opts R acc d = .ok acc') (p : List String) :
    lookupFile acc' p = lookupFile acc p := by
  rcases copyDirsStep_ok_elim h with rfl | hm | hm
  · rfl
  · exact mkdirAll_lookupFile hm p
  · exact mkdir_lookupFile hm p

theorem copyDirsStep_frame {opts : FECopyOptions} {R d : List String}
    {acc acc' : Entry} (h : copyDirsStep opts R acc d = .ok acc') {p : List String}
    (hp : Indep p R) : lookup acc' p = lookup acc p := by
  rcases copyDirsStep_ok_elim h with rfl | hm | hm
  · rfl
  · exact mkdirAll_frame hm (hp.append_right d)
  · exact mkdir_frame hm (hp.append_right d)

theorem copyDirsStep_isDir_mono {opts : FECopyOptions} {R d : List String}
    {acc acc' : Entry} (h : copyDirsStep opts R acc d = .ok acc') {p : List String}
    (hp : isDir acc p) : isDir acc' p := by
  rcases copyDirsStep_ok_elim h with rfl | hm | hm
  · exact hp
  · exact mkdirAll_isDir_mono hm hp
  · exact mkdir_isDir_mono hm hp

theorem copyDirsStep_count {opts : FECopyOptions} {R d : List String}
    {acc acc' : Entry} (h : copyDirsStep opts R acc d = .ok acc') {r : List String}
    {k : String} (hc : (childKeys acc r).count k = 1) :
    (childKeys acc' r).count k = 1 := by
  rcases copyDirsStep_ok_elim h with rfl | hm | hm
  · exact hc
  · exact mkdirAll_count hm hc
  · exact mkdir_count hm hc

theorem copyFilesStep_ok_elim {opts : FECopyOptions} {src R q : List String}
    {acc acc' : Entry} (hov : opts.overwrite = false) (hsk : opts.skip_exist = false)
    (h : copyFilesStep opts src R acc q = .ok acc') :
    ∃ c, lookup acc (src ++ q) = some (.file c) ∧ lookup acc (R ++ q) = none ∧
      writeFile acc (R ++ q) c = some acc' := by
  unfold copyFilesStep fsExtraFileCopy at h
  rw [hov, hsk] at h
  cases hs : lookup acc (src ++ q) with
  | none => rw [hs] at h; exact absurd h (by simp)
  | some e =>
    rw [hs] at h
    cases e with
    | dir _ => exact absurd h (by simp)
    | file c =>
      cases hd : lookup acc (R ++ q) with
      | some e' => rw [hd] at h; simp at h
      | none =>
        rw [hd] at h
        simp only [Option.isSome_none, Bool.not_false, Bool.true_and, Bool.and_false,
          Bool.false_eq_true, if_false] at h
        cases hw : writeFile acc (R ++ q) c with
        | none => rw [hw] at h; exact absurd h (by simp)
        | some a =>
          rw [hw] at h
          injection h with h
          exact ⟨c, rfl, rfl, h ▸ hw⟩

theorem copyFilesStep_persist {opts : FECopyOptions} {src R q : List String}
    {acc acc' : Entry} (hov : opts.overwrite = false) (hsk : opts.skip_exist = false)
    (h : copyFilesStep opts src R acc q = .ok acc') {p : List String} {c₀ : String}
    (hp : lookupFile acc p = some c₀) : lookupFile acc' p = some c₀ := by
  obtain ⟨c, _, hd, hw⟩ := copyFilesStep_ok_elim hov hsk h
  have hne : p ≠ R ++ q := by
    intro he
    rw [he] at hp
    unfold lookupFile at hp
    rw [hd] at hp
    cases hp
  rw [writeFile_lookupFile_of_ne hw hne]
  exact hp

theorem copyFilesStep_frame {opts : FECopyOptions} {src R q : List String}
    {acc acc' : Entry} (hov : opts.overwrite = false) (hsk : opts.skip_exist = false)
    (h : copyFilesStep opts src R acc q = .ok acc') {p : List String}
    (hp : Indep p R) : lookup acc' p = lookup acc p := by
  obtain ⟨c, _, _, hw⟩ := copyFilesStep_ok_elim hov hsk h
  exact writeFile_frame hw (hp.append_right q)

theorem copyFilesStep_isDir_mono {opts : FECopyOptions} {src R q : List String}
    {acc acc' : Entry} (hov : opts.overwrite = false) (hsk : opts.skip_exist = false)
    (h : copyFilesStep opts src R acc q = .ok acc') {p : List String}
    (hp : isDir acc p) : isDir acc' p := by
  obtain ⟨c, _, _, hw⟩ := copyFilesStep_ok_elim hov hsk h
  exact writeFile_isDir_mono hw hp

theorem copyFilesStep_count {opts : FECopyOptions} {src R q : List String}
    {acc acc' : Entry} (hov : opts.overwrite = false) (hsk : opts.skip_exist = false)
    (h : copyFilesStep opts src R acc q = .ok acc') {r : List String} {k : String}
    (hc : (childKeys acc r).count k = 1) : (childKeys acc' r).count k = 1 := by
  obtain ⟨c, _, _, hw⟩ := copyFilesStep_ok_elim hov hsk h
  exact writeFile_count hw hc

/-! ## `fsExtraDirCopy` composite lemmas -/

theorem fsExtraDirCopy_ok_elim {fs fs' : Entry} {src dst : List String}
    {opts : FECopyOptions} (h : fsExtraDirCopy fs src dst opts = .ok fs') :
    ∃ cs dn R fs1,
      lookup fs src = some (.dir cs) ∧ src.getLast? = some dn ∧
      R = (if ((lookup fs dst).isSome || !opts.copy_inside) && !opts.content_only
           then dst ++ [dn] else dst) ∧
      (collectDirPaths (.dir cs)).foldlM (copyDirsStep opts R) fs = .ok fs1 ∧
      (collectFilePaths (.dir cs)).foldlM (copyFilesStep opts src R) fs1 = .ok fs' := by
  cases hs : lookup fs src with
  | none => simp [fsExtraDirCopy, hs] at h
  | some e =>
    cases e with
    | file _ => simp [fsExtraDirCopy, hs] at h
    | dir cs =>
      cases hl : src.getLast? with
      | none => simp [fsExtraDirCopy, hs, hl] at h
      | some dn =>
        have hred : fsExtraDirCopy fs src dst opts =
            (match (collectDirPaths (.dir cs)).foldlM
              (copyDirsStep opts
                (if ((lookup fs dst).isSome || !opts.copy_inside) && !opts.content_only
                 then dst ++ [dn] else dst)) fs with
             | .error e => .error e
             | .ok fs1 => (collectFilePaths (.dir cs)).foldlM
                 (copyFilesStep opts src
                   (if ((lookup fs dst).isSome || !opts.copy_inside) && !opts.content_only
                    then dst ++ [dn] else dst)) fs1) := by
          unfold fsExtraDirCopy
          rw [hs, hl]
        rw [hred] at h
        cases hfold : (collectDirPaths (.dir cs)).foldlM
            (copyDirsStep opts
              (if ((lookup fs dst).isSome || !opts.copy_inside) && !opts.content_only
               then dst ++ [dn] else dst)) fs with
        | error e => rw [hfold] at h; simp at h
        | ok fs1 =>
          rw [hfold] at h
          exact ⟨cs, dn, _, fs1, rfl, rfl, rfl, hfold, h⟩

theorem dirsFold_lookupFile {opts : FECopyOptions} {R : List String} {L : List (List String)}
    {fs fs1 : Entry} (h : L.foldlM (copyDirsStep opts R) fs = .ok fs1) (p : List String) :
    lookupFile fs1 p = lookupFile fs p := by
  exact foldlM_ok_preserve (copyDirsStep opts R)
    (fun s => lookupFile s p = lookupFile fs p) L
    (fun s a s' _ hstep hs => by
      show lookupFile s' p = lookupFile fs p
      rw [copyDirsStep_lookupFile hstep p]; exact hs)
    h rfl

theorem fsExtraDirCopy_frame {fs fs' : Entry} {src dst : List String}
    {opts : FECopyOptions} (hov : opts.overwrite = false)
    (hsk : opts.skip_exist = false)
    (h : fsExtraDirCopy fs src dst opts = .ok fs') {p : List String}
    (hp : Indep p dst) : lookup fs' p = lookup fs p := by
  obtain ⟨cs, dn, R, fs1, hs, hl, hR, hdirs, hfiles⟩ := fsExtraDirCopy_ok_elim h
  have hpR : Indep p R := by
    rw [hR]
    split
    · exact hp.append_right [dn]
    · exact hp
  have h1 : lookup fs1 p = lookup fs p :=
    foldlM_ok_preserve _ (fun s => lookup s p = lookup fs p) _
      (fun s a s' _ hstep hs' => by
        show lookup s' p = lookup fs p
        rw [copyDirsStep_frame hstep hpR]; exact hs')
      hdirs rfl
  exact foldlM_ok_preserve _ (fun s => lookup s p = lookup fs p) _
    (fun s a s' _ hstep hs' => by
      show lookup s' p = lookup fs p
      rw [copyFilesStep_frame hov hsk hstep hpR]; exact hs')
    hfiles h1

theorem fsExtraDirCopy_persistFile {fs fs' : Entry} {src dst : List String}
    {opts : FECopyOptions} (hov : opts.overwrite = false)
    (hsk : opts.skip_exist = false)
    (h : fsExtraDirCopy fs src dst opts = .ok fs') {p : List String} {c : String}
    (hp : lookupFile fs p = some c) : lookupFile fs' p = some c := by
  obtain ⟨cs, dn, R, fs1, hs, hl, hR, hdirs, hfiles⟩ := fsExtraDirCopy_ok_elim h
  have h1 : lookupFile fs1 p = some c := by
    rw [dirsFold_lookupFile hdirs p]
    exact hp
  exact foldlM_ok_preserve _ (fun s => lookupFile s p = some c) _
    (fun s a s' _ hstep hs' => copyFilesStep_persist hov hsk hstep hs')
    hfiles h1

theorem fsExtraDirCopy_isDir_mono {fs fs' : Entry} {src dst : List String}
    {opts : FECopyOptions} (hov : opts.overwrite = false)
    (hsk : opts.skip_exist = false)
    (h : fsExtraDirCopy fs src dst opts = .ok fs') {p : List String}
    (hp : isDir fs p) : isDir fs' p := by
  obtain ⟨cs, dn, R, fs1, hs, hl, hR, hdirs, hfiles⟩ := fsExtraDirCopy_ok_elim h
  have h1 : isDir fs1 p :=
    foldlM_ok_preserve _ (fun s => isDir s p) _
      (fun s a s' _ hstep hs' => copyDirsStep_isDir_mono hstep hs') hdirs hp
  exact foldlM_ok_preserve _ (fun s => isDir s p) _
    (fun s a s' _ hstep hs' => copyFilesStep_isDir_mono hov hsk hstep hs')
    hfiles h1

theorem fsExtraDirCopy_count {fs fs' : Entry} {src dst : List String}
    {opts : FECopyOptions} (hov : opts.overwrite = false)
    (hsk : opts.skip_exist = false)
    (h : fsExtraDirCopy fs src dst opts = .ok fs') {r : List String} {k : String}
    (hc : (childKeys fs r).count k = 1) : (childKeys fs' r).count k = 1 := by
  obtain ⟨cs, dn, R, fs1, hs, hl, hR, hdirs, hfiles⟩ := fsExtraDirCopy_ok_elim h
  have h1 : (childKeys fs1 r).count k = 1 :=
    foldlM_ok_preserve _ (fun s => (childKeys s r).count k = 1) _
      (fun s a s' _ hstep hs' => copyDirsStep_count hstep hs') hdirs hc
  exact foldlM_ok_preserve _ (fun s => (childKeys s r).count k = 1) _
    (fun s a s' _ hstep hs' => copyFilesStep_count hov hsk hstep hs')
    hfiles h1

/-- The central copy theorem: when a `fs_extra` directory copy with
`overwrite` and `skip_exist` off succeeds, every file below the source is
present below the destination root with identical content.  The
destination root must be independent of the source (the program's store
and working directory are disjoint subtrees). -/
theorem fsExtraDirCopy_trace {fs fs' : Entry} {src dst : List String}
    {opts : FECopyOptions} (hov : opts.overwrite = false)
    (hsk : opts.skip_exist = false)
    (h : fsExtraDirCopy fs src dst opts = .ok fs')
    (R : List String)
    (hR : R = (if ((lookup fs dst).isSome || !opts.copy_inside) && !opts.content_only
               then dst ++ [src.getLastD ""] else dst))
    (hind : Indep R src) {q : List String} {c : String}
    (hq : lookupFile fs (src ++ q) = some c) :
    lookupFile fs' (R ++ q) = some c := by
  obtain ⟨cs, dn, R', fs1, hs, hl, hR', hdirs, hfiles⟩ := fsExtraDirCopy_ok_elim h
  have hdn : src.getLastD "" = dn := by
    rw [List.getLastD_eq_getLast?, hl]
    rfl
  have hRR : R' = R := by rw [hR', hR, hdn]
  rw [hRR] at hdirs hfiles
  have hmem : q ∈ collectFilePaths (.dir cs) := by
    rw [lookupFile_append, hs] at hq
    exact mem_collect_of_lookupFile hq
  have h1 : lookupFile fs1 (src ++ q) = some c := by
    rw [dirsFold_lookupFile hdirs]
    exact hq
  refine (foldlM_trace (copyFilesStep opts src R)
    (fun s => lookupFile s (src ++ q) = some c)
    (fun s => lookupFile s (R ++ q) = some c)
    q (collectFilePaths (.dir cs)) ?_ ?_ ?_ hmem hfiles h1)
  · intro s a s' _ hstep hs'
    obtain ⟨c', _, hd, hw⟩ := copyFilesStep_ok_elim hov hsk hstep
    rw [writeFile_lookupFile_of_ne hw (Ne.symm (hind.ne_append))]
    exact hs'
  · intro s a s' _ hstep hs'
    obtain ⟨c', _, hd, hw⟩ := copyFilesStep_ok_elim hov hsk hstep
    have hne : R ++ q ≠ R ++ a := by
      intro he
      rw [← he] at hd
      unfold lookupFile at hs'
      rw [hd] at hs'
      cases hs'
    rw [writeFile_lookupFile_of_ne hw hne]
    exact hs'
  · intro s s' hs' hstep
    obtain ⟨c', hsrc, hd, hw⟩ := copyFilesStep_ok_elim hov hsk hstep
    have hcc : c' = c := by
      unfold lookupFile at hs'
      rw [hsrc] at hs'
      exact Option.some.inj hs'
    rw [← hcc]
    exact writeFile_lookupFile_self hw

/-! ## `addCmd` decomposition -/

theorem rpath_resolve_push_abs (S : List String) (x : List String) (cwd : List String) :
    ((RPath.mk true S).push ⟨false, x⟩).resolve cwd = S ++ x := by
  simp [RPath.push, RPath.resolve]

theorem rpath_pop_push_single (cfg : RPath) (nm : String) :
    (cfg.push ⟨false, [nm]⟩).pop = cfg := by
  cases cfg with
  | mk ab comps => simp [RPath.push, RPath.pop, List.dropLast_concat]

theorem addCmd_ok_elim {config : RPath} {presets : List String} {name : String}
    {files dirs : List RPath} {cwd : List String} {fs fs' : Entry}
    (h : addCmd config presets name files dirs cwd fs = .ok fs') :
    presets.contains name = false ∧
    ∃ fs1 cfg2 fs2,
      mkdir fs ((config.push ⟨false, [name]⟩).resolve cwd) = some fs1 ∧
      files.foldlM (addFilesStep cwd) (config.push ⟨false, [name]⟩, fs1) = .ok (cfg2, fs2) ∧
      dirs.foldlM (addDirsStep cwd cfg2) fs2 = .ok fs' := by
  unfold addCmd at h
  cases hc : presets.contains name with
  | true => rw [hc] at h; simp at h
  | false =>
    rw [hc] at h
    simp only [Bool.false_eq_true, if_false] at h
    refine ⟨rfl, ?_⟩
    cases hm : mkdir fs ((config.push ⟨false, [name]⟩).resolve cwd) with
    | none => rw [hm] at h; simp at h
    | some fs1 =>
      rw [hm] at h
      have h2 : (match files.foldlM (addFilesStep cwd) (config.push ⟨false, [name]⟩, fs1) with
                 | Except.error e => (Except.error e : FsM)
                 | Except.ok (config2, fs2) =>
                   dirs.foldlM (addDirsStep cwd config2) fs2) = .ok fs' := h
      cases hff : files.foldlM (addFilesStep cwd) (config.push ⟨false, [name]⟩, fs1) with
      | error e => rw [hff] at h2; simp at h2
      | ok pr =>
        rw [hff] at h2
        obtain ⟨cfg2, fs2⟩ := pr
        exact ⟨fs1, cfg2, fs2, rfl, hff, h2⟩

theorem addFilesStep_ok_elim {cwd : List String} {cfg cfg' : RPath} {e e' : Entry}
    {f : RPath} (h : addFilesStep cwd (cfg, e) f = .ok (cfg', e')) :
    ∃ c, lookup e (f.resolve cwd) = some (.file c) ∧
      writeFile e ((cfg.push f).resolve cwd) c = some e' ∧ cfg' = (cfg.push f).pop := by
  have h2 : (match lookup e (f.resolve cwd) with
             | some (.file c) =>
               (match writeFile e ((cfg.push f).resolve cwd) c with
                | some fsx => Except.ok ((cfg.push f).pop, fsx)
                | none => Except.error ("io error", e))
             | _ => (Except.error ("source is not a readable file", e) :
                 Except (String × Entry) (RPath × Entry))) = .ok (cfg', e') := h
  cases hs : lookup e (f.resolve cwd) with
  | none => rw [hs] at h2; simp at h2
  | some x =>
    rw [hs] at h2
    cases x with
    | dir _ => simp at h2
    | file c =>
      have h3 : (match writeFile e ((cfg.push f).resolve cwd) c with
                 | some fsx => Except.ok ((cfg.push f).pop, fsx)
                 | none => (Except.error ("io error", e) :
                     Except (String × Entry) (RPath × Entry))) = .ok (cfg', e') := h2
      cases hw : writeFile e ((cfg.push f).resolve cwd) c with
      | none => rw [hw] at h3; simp at h3
      | some a =>
        rw [hw] at h3
        injection h3 with h3
        injection h3 with h1 hsnd
        exact ⟨c, rfl, by rw [← hsnd]; exact hw, h1.symm⟩

/-- The options of the `Add` directories loop:
`CopyOptions::new().copy_inside(true)`. -/
theorem addDirsStep_unfold (cwd : List String) (cfg : RPath) (acc : Entry) (d : RPath) :
    addDirsStep cwd cfg acc d =
      fsExtraDirCopy acc (d.resolve cwd) (cfg.resolve cwd) { copy_inside := true } := rfl

/-! ## Tree-printer lemmas -/

theorem printDir_eq_spec_aux : ∀ N : Nat, ∀ cs : List (String × Entry),
    esize.go cs ≤ N → ∀ lvl : Nat, 1 ≤ lvl →
    printDirE.go lvl cs = specRenderE.go lvl cs := by
  intro N
  induction N with
  | zero =>
    intro cs h lvl _
    cases cs with
    | nil => simp [printDirE.go, specRenderE.go]
    | cons he rest =>
      obtain ⟨n, e⟩ := he
      simp only [esize.go] at h
      omega
  | succ N ih =>
    intro cs h lvl hl
    cases cs with
    | nil => simp [printDirE.go, specRenderE.go]
    | cons he rest =>
      obtain ⟨n, e⟩ := he
      have hsz : esize e + esize.go rest + 1 ≤ N + 1 := by
        simpa [esize.go] using h
      have hrest : esize.go rest ≤ N := by
        have h1 : 1 ≤ esize e := by
          cases e <;> simp [esize]
        omega
      cases e with
      | file c =>
        simp only [printDirE.go, specRenderE.go]
        rw [ih rest hrest lvl hl, Nat.max_eq_left hl]
      | dir cs' =>
        have hcs' : esize.go cs' ≤ N := by
          have he : esize (Entry.dir cs') = 1 + esize.go cs' := rfl
          rw [he] at hsz
          omega
        simp only [printDirE.go, specRenderE.go]
        rw [ih rest hrest lvl hl]
        rw [show printDirE (lvl + 1) (.dir cs') = printDirE.go (lvl + 1) cs' from rfl]
        rw [show specRenderE (lvl + 1) (.dir cs') = specRenderE.go (lvl + 1) cs' from rfl]
        rw [ih cs' hcs' (lvl + 1) (by omega), Nat.max_eq_left hl]

theorem inspectTop_eq_spec (cs : List (String × Entry)) :
    inspectTop cs = specRenderE.go 0 cs := by
  induction cs with
  | nil => simp [inspectTop, specRenderE.go]
  | cons he rest ih =>
    obtain ⟨n, e⟩ := he
    cases e with
    | file c =>
      simp only [inspectTop, specRenderE.go, ih]
      rfl
    | dir cs' =>
      simp only [inspectTop, specRenderE.go, ih]
      rw [show printDirE 1 (.dir cs') = printDirE.go 1 cs' from rfl]
      rw [show specRenderE 1 (.dir cs') = specRenderE.go 1 cs' from rfl]
      rw [printDir_eq_spec_aux (esize.go cs') cs' (Nat.le_refl _) 1 (Nat.le_refl _)]
      rfl

/-! ## String helpers for the List output -/

theorem tab_append_inj {a b : String} (h : "\t" ++ a = "\t" ++ b) : a = b := by
  have hd := congrArg String.data h
  rw [String.data_append, String.data_append] at hd
  exact String.ext (List.append_cancel_left hd)

theorem header_ne_tab (a : String) : ("Available presets: " : String) ≠ "\t" ++ a := by
  intro he
  have hd := congrArg String.data he
  rw [String.data_append] at hd
  have h1 : ("Available presets: " : String).data = 'A' :: "vailable presets: ".data := rfl
  have h2 : ("\t" : String).data = ['\t'] := rfl
  rw [h1, h2] at hd
  injection hd with hd _
  exact absurd hd (by decide)

/-! ## Claim theorems -/

/-- **C4, counterexample.**  The claim renders entries with the marker
repeated exactly `depth` times starting at depth 0 (`claimRenderE`, written
from the claim's words).  On a preset holding `a.txt` and `d/b.txt`, the
program prints `- a.txt`, `- d/`, `- b.txt`, while the claim's rendering
would be ` a.txt`, ` d/`, `- b.txt`: the depth-0 lines disagree. -/
theorem claim_C4_cex :
    inspectCmd S0 "p" fsC4 = .ok ["Contents of p: ", "- a.txt", "- d/", "- b.txt"] ∧
    claimRenderE.go 0 [("a.txt", .file "x"), ("d", .dir [("b.txt", .file "y")])] =
      [" a.txt", " d/", "- b.txt"] ∧
    (["Contents of p: ", "- a.txt", "- d/", "- b.txt"] : List String) ≠
      "Contents of p: " :: [" a.txt", " d/", "- b.txt"] :=
  ⟨rfl, rfl, by decide⟩

/-- **C4, amended.**  `Inspect` on an existing preset prints the header and
then the depth-first rendering in which the entry at nesting depth `d` is
indented by the marker repeated `max d 1` times (the program hard-codes one
marker at depth 0; deeper entries get exactly `d` markers), with directory
entries suffixed by the path separator (`specRenderE`, written from the
spec's words as amended). -/
theorem claim_C4_amended {store : List String} {name : String} {fs : Entry}
    {cs : List (String × Entry)} (h : lookup fs (store ++ [name]) = some (.dir cs)) :
    inspectCmd store name fs =
      .ok (("Contents of " ++ name ++ ": ") :: specRenderE.go 0 cs) := by
  unfold inspectCmd
  rw [h]
  show Except.ok (("Contents of " ++ name ++ ": ") :: inspectTop cs) = _
  rw [inspectTop_eq_spec]

/-- Witness for C4: the amended theorem applied to the concrete world
`fsC4`. -/
theorem claim_C4_witness :
    inspectCmd S0 "p" fsC4 =
      .ok (("Contents of " ++ "p" ++ ": ") ::
        specRenderE.go 0 [("a.txt", .file "x"), ("d", .dir [("b.txt", .file "y")])]) :=
  claim_C4_amended rfl

/-- **C5.**  `Add` with a name already present in the registry fails with
the "already exists" error before touching the filesystem: the error
carries the filesystem state, which is exactly the input state, so no file
was created, copied or modified. -/
theorem claim_C5 {config : RPath} {presets : List String} {name : String}
    {files dirs : List RPath} {cwd : List String} {fs : Entry}
    (h : presets.contains name = true) :
    addCmd config presets name files dirs cwd fs =
      .error ("Preset with name " ++ name ++ " already exists", fs) := by
  unfold addCmd
  rw [h]
  simp

/-- Witness for C5 at a concrete world with an existing preset `p`. -/
theorem claim_C5_witness :
    addCmd ⟨true, S0⟩ (presetsOf fsC3 S0) "p" [⟨false, ["a.txt"]⟩] [] ["work"] fsC3 =
      .error ("Preset with name " ++ "p" ++ " already exists", fsC3) :=
  claim_C5 (by decide)

/-- **C8.**  `Apply` with a name not in the registry fails with the
"could not find preset" error; the error carries the unchanged filesystem
state, so no copy was performed. -/
theorem claim_C8 {S presets cwd : List String} {name : String} {fs : Entry}
    (h : presets.contains name = false) :
    applyCmd S presets name cwd fs =
      .error ("Could not find preset with name " ++ name, fs) := by
  unfold applyCmd
  rw [h]
  simp

/-- Witness for C8 at a concrete world without preset `q`. -/
theorem claim_C8_witness :
    applyCmd S0 (presetsOf fsC3 S0) "q" ["work"] fsC3 =
      .error ("Could not find preset with name " ++ "q", fsC3) :=
  claim_C8 (by decide)

/-- **C9.**  The store locator fails when `HOME` is unset; fails when
`<HOME>/.config` does not exist (it never creates that level); and when
`<HOME>/.config` is a directory and `<HOME>/.config/cargo_preset` is
absent, it creates the `cargo_preset` directory, prints the notice exactly
when the debug flag is set, and returns the resolved path. -/
theorem claim_C9 {debug : Bool} {fs : Entry} :
    locateStore none debug fs = .error "Home directory not found" ∧
    (∀ h : List String, lookup fs (h ++ [".config"]) = none →
      locateStore (some h) debug fs = .error "$HOME/.config directory not found") ∧
    (∀ (h : List String) (cs : List (String × Entry)),
      lookup fs (h ++ [".config"]) = some (.dir cs) →
      lookup fs (h ++ [".config", "cargo_preset"]) = none →
      ∃ fs', locateStore (some h) debug fs =
          .ok (h ++ [".config", "cargo_preset"], fs',
            if debug then ["Creating cargo_preset configuration directory"] else []) ∧
        isDir fs' (h ++ [".config", "cargo_preset"])) := by
  refine ⟨rfl, ?_, ?_⟩
  · intro h hc
    simp [locateStore, hc]
  · intro h cs hc habs
    have hassoc : h ++ [".config", "cargo_preset"] = (h ++ [".config"]) ++ ["cargo_preset"] := by
      simp
    have habs' : lookup fs ((h ++ [".config"]) ++ ["cargo_preset"]) = none := by
      rw [← hassoc]
      exact habs
    obtain ⟨fs', hmk⟩ := mkdir_succeeds ⟨cs, hc⟩ habs'
    have hmk' : mkdir fs (h ++ [".config", "cargo_preset"]) = some fs' := by
      rw [hassoc]
      exact hmk
    refine ⟨fs', ?_, ?_⟩
    · simp [locateStore, hc, habs, hmk']
    · rw [hassoc]
      exact mkdir_isDir_self hmk

/-- Witness for C9: a world whose `.config` exists but holds no
`cargo_preset`. -/
theorem claim_C9_witness :
    locateStore none true (Entry.dir [("home", .dir [("u", .dir [(".config", .dir [])])])]) =
      .error "Home directory not found" ∧
    (∃ fs', locateStore (some ["home", "u"]) true
        (Entry.dir [("home", .dir [("u", .dir [(".config", .dir [])])])]) =
        .ok (["home", "u"] ++ [".config", "cargo_preset"], fs',
          if true then ["Creating cargo_preset configuration directory"] else []) ∧
      isDir fs' (["home", "u"] ++ [".config", "cargo_preset"])) :=
  ⟨claim_C9.1, claim_C9.2.2 ["home", "u"] [] rfl rfl⟩

/-- **C10.**  During registry enumeration, a directory entry that cannot be
retrieved, or whose name is not valid UTF-8, makes the program panic via
`.expect(..)` (the `PanicOr.panic` outcome, a process abort distinct from
the `anyhow` error channel every other failure uses). -/
theorem claim_C10 {l : List (Except String RawName)}
    (h : (∃ e, Except.error e ∈ l) ∨ Except.ok RawName.invalid ∈ l) :
    (currentPresets l).isPanic = true := by
  induction l with
  | nil =>
    rcases h with ⟨e, he⟩ | hi
    · cases he
    · cases hi
  | cons x rest ih =>
    cases x with
    | error e => rfl
    | ok rn =>
      cases rn with
      | invalid => rfl
      | utf8 s =>
        have hrest : (∃ e, Except.error e ∈ rest) ∨ Except.ok RawName.invalid ∈ rest := by
          rcases h with ⟨e, he⟩ | hi
          · rcases List.mem_cons.mp he with he | he
            · cases he
            · exact Or.inl ⟨e, he⟩
          · rcases List.mem_cons.mp hi with hi | hi
            · cases hi
            · exact Or.inr hi
        have := ih hrest
        unfold currentPresets
        cases hr : currentPresets rest with
        | panic m => rfl
        | ok l' => rw [hr] at this; cases this

/-- Witness for C10: one retrievable UTF-8 entry followed by a failed
entry panics. -/
theorem claim_C10_witness :
    (currentPresets [.ok (.utf8 "p"), .error "io error"]).isPanic = true :=
  claim_C10 (Or.inl ⟨"io error", by simp⟩)

/-- **C6.**  A successful `Add` of a name not in the registry, followed by
`List`, lists the name exactly once: the store gains exactly one
subdirectory of that name, whatever the files and directories arguments
were. -/
theorem claim_C6 {S cwd : List String} {name : String} {files dirsArgs : List RPath}
    {fs fs' : Entry}
    (hfresh : name ∉ presetsOf fs S)
    (hok : addCmd ⟨true, S⟩ (presetsOf fs S) name files dirsArgs cwd fs = .ok fs') :
    (presetsOf fs' S).count name = 1 ∧
    (listOutput fs' S).count ("\t" ++ name) = 1 := by
  obtain ⟨hc, fs1, cfg2, fs2, hmk, hff, hdf⟩ := addCmd_ok_elim hok
  rw [rpath_resolve_push_abs] at hmk
  have h1 : (childKeys fs1 S).count name = 1 := by
    rw [mkdir_childKeys_parent hmk, List.count_append,
      List.count_eq_zero_of_not_mem (show name ∉ childKeys fs S from hfresh)]
    simp
  have h2 : (childKeys fs2 S).count name = 1 :=
    foldlM_ok_preserve (addFilesStep cwd)
      (fun st => (childKeys st.2 S).count name = 1) files
      (fun st a st' _ hstep hs => by
        obtain ⟨cfg, ent⟩ := st
        obtain ⟨cfg', ent'⟩ := st'
        obtain ⟨c, _, hw, _⟩ := addFilesStep_ok_elim hstep
        exact writeFile_count hw hs)
      hff h1
  have h3 : (childKeys fs' S).count name = 1 :=
    foldlM_ok_preserve (addDirsStep cwd cfg2)
      (fun s => (childKeys s S).count name = 1) dirsArgs
      (fun s a s' _ hstep hs => fsExtraDirCopy_count rfl rfl hstep hs)
      hdf h2
  refine ⟨h3, ?_⟩
  unfold listOutput
  have hne : (("Available presets: " : String) == "\t" ++ name) = false :=
    beq_eq_false_iff_ne.mpr (header_ne_tab name)
  rw [List.count_cons, hne]
  simp only [Bool.false_eq_true, if_false, Nat.add_zero]
  rw [List.count_map_of_injective _ _ (fun x y hxy => tab_append_inj hxy)]
  exact h3

/-- Witness for C6: adding `p` to an empty store lists it exactly once. -/
theorem claim_C6_witness :
    (presetsOf (world [("p", .dir [("a.txt", .file "hello")])]
        [("a.txt", .file "hello")]) S0).count "p" = 1 ∧
    (listOutput (world [("p", .dir [("a.txt", .file "hello")])]
        [("a.txt", .file "hello")]) S0).count ("\t" ++ "p") = 1 :=
  @claim_C6 S0 ["work"] "p" [⟨false, ["a.txt"]⟩] [] fsW1
    (world [("p", .dir [("a.txt", .file "hello")])] [("a.txt", .file "hello")])
    (by decide) rfl

/-- **C7.**  A successful `Remove` followed by `List` never lists the name
(the registry no longer carries it and no output line equals the
tab-indented name); and `Remove` fails when no preset directory of that
name exists, the error carrying the unchanged filesystem. -/
theorem claim_C7 {S : List String} {name : String} {fs fs' : Entry} :
    (removeCmd S name fs = .ok fs' →
      name ∉ presetsOf fs' S ∧ ("\t" ++ name) ∉ listOutput fs' S) ∧
    ((∀ ds, lookup fs (S ++ [name]) ≠ some (.dir ds)) →
      removeCmd S name fs = .error ("remove_dir_all failed", fs)) := by
  constructor
  · intro hok
    have hrem : removeDirAll fs (S ++ [name]) = some fs' := by
      unfold removeCmd at hok
      cases hr : removeDirAll fs (S ++ [name]) with
      | none => rw [hr] at hok; simp at hok
      | some a =>
        rw [hr] at hok
        injection hok with hok
        rw [hok]
    have hout : name ∉ presetsOf fs' S := removeDirAll_childKeys hrem
    refine ⟨hout, ?_⟩
    unfold listOutput
    intro hmem
    rcases List.mem_cons.mp hmem with he | hmap
    · exact header_ne_tab name (Eq.symm he)
    · obtain ⟨x, hx, hxe⟩ := List.mem_map.mp hmap
      exact hout (tab_append_inj hxe ▸ hx)
  · intro hnd
    unfold removeCmd
    rw [removeDirAll_none_of_not_dir hnd (by simp)]

/-- Witness for C7: removing the sole preset `p` delists it, and removing
the absent `q` fails. -/
theorem claim_C7_witness :
    (("p" ∉ presetsOf (world [] [("a.txt", .file "old")]) S0) ∧
      ("\t" ++ "p") ∉ listOutput (world [] [("a.txt", .file "old")]) S0) ∧
    removeCmd S0 "q" fsC3 = .error ("remove_dir_all failed", fsC3) := by
  constructor
  · exact (@claim_C7 S0 "p" fsC3 (world [] [("a.txt", .file "old")])).1 rfl
  · refine (@claim_C7 S0 "q" fsC3 fsC3).2 ?_
    intro ds hds
    rw [show lookup fsC3 (S0 ++ ["q"]) = none from rfl] at hds
    cases hds

/-- **C3, counterexample.**  With preset `p` holding `a.txt` (content
`new`) and the working directory already holding `a.txt` (content `old`),
`Apply p` fails with fs_extra's `AlreadyExists` error instead of
overwriting, and the working directory still holds the old content: the
claim's "overwriting allowed" and "every file not present before is
present afterward with identical content" both fail here. -/
theorem claim_C3_cex :
    isOkFs (applyCmd S0 (presetsOf fsC3 S0) "p" ["work"] fsC3) = false ∧
    lookupFile (stateOf (applyCmd S0 (presetsOf fsC3 S0) "p" ["work"] fsC3))
      ["work", "a.txt"] = some "old" ∧
    lookupFile fsC3 (S0 ++ ["p", "a.txt"]) = some "new" :=
  ⟨rfl, rfl, rfl⟩

/-- **C3, amended.**  `Apply(n)` with `n` in the registry copies the
preset directory's contents (not the directory itself) into the working
directory, but refuses to overwrite: an existing destination file makes the
operation fail.  When `Apply` succeeds — the store and working directory
being disjoint subtrees — every file of the preset is present in the
working directory afterward with content identical to its copy in the
preset. -/
theorem claim_C3_amended {S presets cwd : List String} {name : String} {fs fs' : Entry}
    (hind : Indep S cwd)
    (hok : applyCmd S presets name cwd fs = .ok fs') :
    ∀ q c, lookupFile fs (S ++ [name] ++ q) = some c →
      lookupFile fs' (cwd ++ q) = some c := by
  intro q c hq
  unfold applyCmd at hok
  cases hc : presets.contains name with
  | false => rw [hc] at hok; simp at hok
  | true =>
    rw [hc] at hok
    simp only [if_true] at hok
    exact fsExtraDirCopy_trace rfl rfl hok cwd (by simp)
      (hind.symm.append_right [name]) hq

/-- Witness for C3: applying preset `p` into an empty working directory
materializes `a.txt` with the preset's content. -/
theorem claim_C3_witness :
    lookupFile (world [("p", .dir [("a.txt", .file "new")])] [("a.txt", .file "new")])
      (["work"] ++ ["a.txt"]) = some "new" :=
  @claim_C3_amended S0 (presetsOf fsC3b S0) ["work"] "p" fsC3b
    (world [("p", .dir [("a.txt", .file "new")])] [("a.txt", .file "new")])
    (by decide) rfl ["a.txt"] "new" rfl

theorem lookupFile_eq_some {fs : Entry} {p : List String} {c : String} :
    lookupFile fs p = some c ↔ lookup fs p = some (.file c) := by
  unfold lookupFile
  cases h : lookup fs p with
  | none => simp
  | some e => cases e <;> simp

/-- **C1, counterexample.**  With `work/sub/a.txt` present and readable,
`Add p --files sub/a.txt` fails (after creating the empty preset
directory): `config.push("sub/a.txt")` makes the copy destination
`<store>/p/sub/a.txt`, whose parent directory does not exist.  The file
neither lands as an immediate child of `<store>/p` nor anywhere under it,
refuting the claim that each listed file is copied into the preset
directory with failure only on missing or unreadable sources. -/
theorem claim_C1_cex :
    lookupFile fsC1 (["work"] ++ ["sub", "a.txt"]) = some "hello" ∧
    isOkFs (addCmd ⟨true, S0⟩ [] "p" [⟨false, ["sub", "a.txt"]⟩] [] ["work"] fsC1) = false ∧
    lookupFile (stateOf (addCmd ⟨true, S0⟩ [] "p" [⟨false, ["sub", "a.txt"]⟩] [] ["work"] fsC1))
      (S0 ++ ["p", "a.txt"]) = none ∧
    lookupFile (stateOf (addCmd ⟨true, S0⟩ [] "p" [⟨false, ["sub", "a.txt"]⟩] [] ["work"] fsC1))
      (S0 ++ ["p", "sub", "a.txt"]) = none :=
  ⟨rfl, rfl, rfl, rfl⟩

/-- **C1, amended.**  When every `files` argument is a single-component
relative path and the store and working directory are disjoint subtrees, a
successful `Add` leaves each listed file as an immediate child of
`<store>/<name>` with content identical to its source in the working
directory.  (A multi-component relative argument instead targets
`<store>/<name>/<arg path>` and fails on the missing parent; an absolute
argument replaces the destination path entirely.) -/
theorem claim_C1_amended {S cwd : List String} {presets names : List String}
    {name : String} {files dirsArgs : List RPath} {fs fs' : Entry}
    (hshape : files = names.map (fun nm => RPath.mk false [nm]))
    (hind : Indep S cwd)
    (hok : addCmd ⟨true, S⟩ presets name files dirsArgs cwd fs = .ok fs') :
    ∀ nm ∈ names, lookupFile fs' (S ++ [name, nm]) = lookupFile fs (cwd ++ [nm]) := by
  intro nm hnm
  obtain ⟨hc, fs1, cfg2, fs2, hmk, hff, hdf⟩ := addCmd_ok_elim hok
  rw [rpath_resolve_push_abs] at hmk
  have hpush : (RPath.mk true S).push ⟨false, [name]⟩ = ⟨true, S ++ [name]⟩ := rfl
  rw [hpush] at hff
  have hindx : ∀ x y : List String, Indep (cwd ++ x) (S ++ y) :=
    fun x y => hind.symm.append x y
  have hassoc : ∀ nm' : String, S ++ [name, nm'] = (S ++ [name]) ++ [nm'] := by
    intro nm'
    simp
  have htgt : ∀ nm' : String,
      ((⟨true, S ++ [name]⟩ : RPath).push ⟨false, [nm']⟩).resolve cwd =
        (S ++ [name]) ++ [nm'] := by
    intro nm'
    simp [RPath.push, RPath.resolve]
  have hres : ∀ nm' : String, (RPath.mk false [nm']).resolve cwd = cwd ++ [nm'] := by
    intro nm'
    simp [RPath.resolve]
  have hindw : ∀ (x : List String) (nm' : String),
      Indep (cwd ++ x) ((S ++ [name]) ++ [nm']) := by
    intro x nm'
    have := hindx x ([name] ++ [nm'])
    rw [← List.append_assoc] at this
    exact this
  have hQ2 := foldlM_trace (addFilesStep cwd)
    (fun st => st.1 = (⟨true, S ++ [name]⟩ : RPath) ∧
      ∀ x, lookup st.2 (cwd ++ x) = lookup fs (cwd ++ x))
    (fun st => (st.1 = (⟨true, S ++ [name]⟩ : RPath) ∧
      ∀ x, lookup st.2 (cwd ++ x) = lookup fs (cwd ++ x)) ∧
      ∃ c, lookupFile st.2 (S ++ [name, nm]) = some c ∧
        lookupFile fs (cwd ++ [nm]) = some c)
    (RPath.mk false [nm]) files
    (by
      intro st a st' ha' hstep hPst
      obtain ⟨cfg, ent⟩ := st
      obtain ⟨cfg', ent'⟩ := st'
      obtain ⟨hcfg, hfr⟩ := hPst
      obtain ⟨nm', rfl⟩ : ∃ nm', a = RPath.mk false [nm'] := by
        rw [hshape] at ha'
        obtain ⟨x, _, hxe⟩ := List.mem_map.mp ha'
        exact ⟨x, hxe.symm⟩
      obtain ⟨c, hsrc, hw, hcfg'⟩ := addFilesStep_ok_elim hstep
      subst hcfg
      rw [htgt nm'] at hw
      refine ⟨by rw [hcfg']; exact rpath_pop_push_single _ _, ?_⟩
      intro x
      rw [writeFile_frame hw (hindw x nm')]
      exact hfr x)
    (by
      intro st a st' ha' hstep hQst
      obtain ⟨cfg, ent⟩ := st
      obtain ⟨cfg', ent'⟩ := st'
      obtain ⟨⟨hcfg, hfr⟩, c0, hdst, hkeep⟩ := hQst
      obtain ⟨nm', rfl⟩ : ∃ nm', a = RPath.mk false [nm'] := by
        rw [hshape] at ha'
        obtain ⟨x, _, hxe⟩ := List.mem_map.mp ha'
        exact ⟨x, hxe.symm⟩
      obtain ⟨c, hsrc, hw, hcfg'⟩ := addFilesStep_ok_elim hstep
      subst hcfg
      rw [htgt nm'] at hw
      refine ⟨⟨by rw [hcfg']; exact rpath_pop_push_single _ _, ?_⟩, ?_⟩
      · intro x
        rw [writeFile_frame hw (hindw x nm')]
        exact hfr x
      · by_cases hnm' : nm' = nm
        · subst hnm'
          refine ⟨c, ?_, ?_⟩
          · rw [hassoc nm']
            exact writeFile_lookupFile_self hw
          · rw [hres nm'] at hsrc
            rw [hfr [nm']] at hsrc
            exact lookupFile_eq_some.mpr hsrc
        · refine ⟨c0, ?_, hkeep⟩
          rw [hassoc nm] at hdst ⊢
          rw [writeFile_lookupFile_of_ne hw ?_]
          · exact hdst
          · intro he
            exact hnm' (Eq.symm (by simpa using List.append_cancel_left he)))
    (by
      intro st st' hPst hstep
      obtain ⟨cfg, ent⟩ := st
      obtain ⟨cfg', ent'⟩ := st'
      obtain ⟨hcfg, hfr⟩ := hPst
      subst hcfg
      obtain ⟨c, hsrc, hw, hcfg'⟩ := addFilesStep_ok_elim hstep
      rw [htgt nm] at hw
      rw [hres nm, hfr [nm]] at hsrc
      refine ⟨⟨by rw [hcfg']; exact rpath_pop_push_single _ _, ?_⟩, c, ?_, ?_⟩
      · intro x
        rw [writeFile_frame hw (hindw x nm)]
        exact hfr x
      · rw [hassoc nm]
        exact writeFile_lookupFile_self hw
      · exact lookupFile_eq_some.mpr hsrc)
    (by
      rw [hshape]
      exact List.mem_map.mpr ⟨nm, hnm, rfl⟩)
    hff
    ⟨rfl, fun x => mkdir_frame hmk (hindx x [name])⟩
  obtain ⟨_, c, hdst2, hsrc2⟩ := hQ2
  have hpersist : lookupFile fs' (S ++ [name, nm]) = some c :=
    foldlM_ok_preserve (addDirsStep cwd cfg2)
      (fun s => lookupFile s (S ++ [name, nm]) = some c) dirsArgs
      (fun s a s' _ hstep hs => fsExtraDirCopy_persistFile rfl rfl hstep hs)
      hdf hdst2
  rw [hpersist, hsrc2]

/-- Witness for C1: adding `a.txt` from the working directory places it as
an immediate child of the preset directory with identical content. -/
theorem claim_C1_amended_witness :
    lookupFile (world [("p", .dir [("a.txt", .file "hello")])] [("a.txt", .file "hello")])
      (S0 ++ ["p", "a.txt"]) = lookupFile fsW1 (["work"] ++ ["a.txt"]) :=
  @claim_C1_amended S0 ["work"] [] ["a.txt"] "p" [⟨false, ["a.txt"]⟩] [] fsW1
    (world [("p", .dir [("a.txt", .file "hello")])] [("a.txt", .file "hello")])
    rfl (by decide) rfl "a.txt" (by simp)

/-- **C2, counterexample.**  `Add p --directories mydir` succeeds, but
`mydir`'s contents do not land directly in `<store>/p`: because the
destination exists, `fs_extra::dir::copy` with `copy_inside` appends the
source directory's name, so the file ends up at `<store>/p/mydir/f.txt`
and `<store>/p/f.txt` does not exist — the directory itself is copied as a
nested child, contrary to the claim. -/
theorem claim_C2_cex :
    isOkFs (addCmd ⟨true, S0⟩ [] "p" [] [⟨false, ["mydir"]⟩] ["work"] fsC2) = true ∧
    lookupFile (stateOf (addCmd ⟨true, S0⟩ [] "p" [] [⟨false, ["mydir"]⟩] ["work"] fsC2))
      (S0 ++ ["p", "f.txt"]) = none ∧
    lookupFile (stateOf (addCmd ⟨true, S0⟩ [] "p" [] [⟨false, ["mydir"]⟩] ["work"] fsC2))
      (S0 ++ ["p", "mydir", "f.txt"]) = some "x" :=
  ⟨rfl, rfl, rfl⟩

/-- **C2, amended.**  For each relative path `d` in the directories list
of a successful `Add` (with single-component relative file arguments and
disjoint store and working directory), the directory `d` itself is copied
as a nested child of the new preset directory: every file at relative path
`q` below `d` ends up at `<store>/<name>/<basename d>/q`, because the
destination directory already exists, making `fs_extra` append the source
directory's name. -/
theorem claim_C2_amended {S cwd : List String} {presets names : List String}
    {name : String} {files dirsArgs : List RPath} {fs fs' : Entry}
    {d : List String} {dn : String}
    (hshape : files = names.map (fun nm => RPath.mk false [nm]))
    (hind : Indep S cwd)
    (hd : RPath.mk false d ∈ dirsArgs)
    (hdn : d.getLast? = some dn)
    (hok : addCmd ⟨true, S⟩ presets name files dirsArgs cwd fs = .ok fs') :
    ∀ q c, lookupFile fs (cwd ++ d ++ q) = some c →
      lookupFile fs' (S ++ [name, dn] ++ q) = some c := by
  intro q c hq
  obtain ⟨hc, fs1, cfg2, fs2, hmk, hff, hdf⟩ := addCmd_ok_elim hok
  rw [rpath_resolve_push_abs] at hmk
  have hpush : (RPath.mk true S).push ⟨false, [name]⟩ = ⟨true, S ++ [name]⟩ := rfl
  rw [hpush] at hff
  have hindx : ∀ x y : List String, Indep (cwd ++ x) (S ++ y) :=
    fun x y => hind.symm.append x y
  have hne : d ≠ [] := by
    intro he
    rw [he] at hdn
    cases hdn
  -- invariant after mkdir and the files loop
  have hP2 := foldlM_ok_preserve (addFilesStep cwd)
    (fun st => st.1 = (⟨true, S ++ [name]⟩ : RPath) ∧
      isDir st.2 (S ++ [name]) ∧
      ∀ x, lookup st.2 (cwd ++ x) = lookup fs (cwd ++ x))
    files
    (by
      intro st a st' ha' hstep hPst
      obtain ⟨cfg, ent⟩ := st
      obtain ⟨cfg', ent'⟩ := st'
      obtain ⟨hcfg, hdir, hfr⟩ := hPst
      obtain ⟨nm', rfl⟩ : ∃ nm', a = RPath.mk false [nm'] := by
        rw [hshape] at ha'
        obtain ⟨x, _, hxe⟩ := List.mem_map.mp ha'
        exact ⟨x, hxe.symm⟩
      obtain ⟨cx, hsrc, hw, hcfg'⟩ := addFilesStep_ok_elim hstep
      subst hcfg
      have htgt : ((⟨true, S ++ [name]⟩ : RPath).push ⟨false, [nm']⟩).resolve cwd =
          (S ++ [name]) ++ [nm'] := by simp [RPath.push, RPath.resolve]
      rw [htgt] at hw
      refine ⟨by rw [hcfg']; exact rpath_pop_push_single _ _,
        writeFile_isDir_mono hw hdir, ?_⟩
      intro x
      have hiw : Indep (cwd ++ x) ((S ++ [name]) ++ [nm']) := by
        have := hindx x ([name] ++ [nm'])
        rw [← List.append_assoc] at this
        exact this
      rw [writeFile_frame hw hiw]
      exact hfr x)
    hff
    ⟨rfl, mkdir_isDir_self hmk, fun x => mkdir_frame hmk (hindx x [name])⟩
  obtain ⟨hcfg2, hdir2, hfr2⟩ := hP2
  subst hcfg2
  -- step through the directories loop, tracing the step for d
  have hkeyQ := foldlM_trace (addDirsStep cwd ⟨true, S ++ [name]⟩)
    (fun s => isDir s (S ++ [name]) ∧
      ∀ x, lookup s (cwd ++ x) = lookup fs (cwd ++ x))
    (fun s => lookupFile s (S ++ [name, dn] ++ q) = some c)
    (RPath.mk false d) dirsArgs
    (by
      intro s a s' _ hstep hPs
      obtain ⟨hdirS, hfrS⟩ := hPs
      have hstep' : fsExtraDirCopy s (a.resolve cwd)
          ((⟨true, S ++ [name]⟩ : RPath).resolve cwd) { copy_inside := true } = .ok s' :=
        hstep
      have hres : ((⟨true, S ++ [name]⟩ : RPath).resolve cwd) = S ++ [name] := rfl
      rw [hres] at hstep'
      refine ⟨fsExtraDirCopy_isDir_mono rfl rfl hstep' hdirS, ?_⟩
      intro x
      rw [fsExtraDirCopy_frame rfl rfl hstep' (hindx x [name])]
      exact hfrS x)
    (by
      intro s a s' _ hstep hQs
      have hstep' : fsExtraDirCopy s (a.resolve cwd) (S ++ [name])
          { copy_inside := true } = .ok s' := hstep
      exact fsExtraDirCopy_persistFile rfl rfl hstep' hQs)
    (by
      intro s s' hPs hstep
      obtain ⟨hdirS, hfrS⟩ := hPs
      have hstep' : fsExtraDirCopy s (cwd ++ d) (S ++ [name])
          { copy_inside := true } = .ok s' := hstep
      obtain ⟨ds, hds⟩ := hdirS
      have hsome : (lookup s (S ++ [name])).isSome = true := by rw [hds]; rfl
      have hglast : (cwd ++ d).getLastD "" = dn := by
        rw [List.getLastD_eq_getLast?, List.getLast?_append_of_ne_nil _ hne, hdn]
        rfl
      have hsrcq : lookupFile s ((cwd ++ d) ++ q) = some c := by
        have hfr' := hfrS (d ++ q)
        rw [← List.append_assoc] at hfr'
        exact lookupFile_eq_some.mpr (hfr'.trans (lookupFile_eq_some.mp hq))
      have htr := fsExtraDirCopy_trace rfl rfl hstep' ((S ++ [name]) ++ [dn])
        (by rw [hsome, hglast]; simp)
        (by
          have := (hind.append ([name] ++ [dn]) d).symm.symm
          have h2 : Indep (S ++ ([name] ++ [dn])) (cwd ++ d) := hind.append _ _
          rw [← List.append_assoc] at h2
          exact h2)
        hsrcq
      have hpe : (S ++ [name, dn]) ++ q = ((S ++ [name]) ++ [dn]) ++ q := by simp
      rw [hpe]
      exact htr)
    hd hdf ⟨hdir2, hfr2⟩
  exact hkeyQ

/-- Witness for C2: the `fsC2` run places `mydir/f.txt` at
`<store>/p/mydir/f.txt`. -/
theorem claim_C2_amended_witness :
    lookupFile (world [("p", .dir [("mydir", .dir [("f.txt", .file "x")])])]
        [("mydir", .dir [("f.txt", .file "x")])])
      (S0 ++ ["p", "mydir"] ++ ["f.txt"]) = some "x" :=
  @claim_C2_amended S0 ["work"] [] [] "p" [] [⟨false, ["mydir"]⟩] fsC2
    (world [("p", .dir [("mydir", .dir [("f.txt", .file "x")])])]
      [("mydir", .dir [("f.txt", .file "x")])])
    ["mydir"] "mydir"
    rfl (by decide) (by simp) rfl rfl ["f.txt"] "x" rfl

end CargoPreset
